import Mathlib

/-!
# Verification of the FontKitJS font-management library

Shallow embedding of the font-management helper (`src/unnamed/part_000`) of
this repository, together with proofs settling the frozen claims about it.

Modelling conventions:

* JS strings are Lean `String`s / `List Char`; the few regular expressions of
  the source (`parseAxis`, `parseFeatures`, `supportsVariableWeight`,
  `supportsWeightRange`) are embedded as executable character-level scanners
  that reproduce the left-to-right, global `RegExp.exec` behaviour.
* JS numbers are modelled by `DecNum`/`JSNum`: a finite number is kept in the
  decimal form in which JavaScript's `String()` conversion renders it — an
  optional sign, integer digits, optional fraction digits, and (for numbers
  whose `String()` rendering uses scientific notation, i.e. magnitude at least
  1e21 or below 1e-6) an exponent part.  `NaN` is a separate constructor.
  The rational value of such a number is given by `JSNum.valQ`.
* JS objects used as maps (axis maps, feature maps, the font registry) are
  insertion-ordered association lists with string keys; assignment to an
  existing key keeps its position (`assocSet`), as in JavaScript.
* `\s` of the source regexes is modelled by the four common ASCII whitespace
  characters; the probe strings of the claims only use plain spaces.
-/

set_option maxRecDepth 4000

namespace FontKit

/-- ASCII alphanumeric, the `[A-Za-z0-9]` class of the source regexes. -/
def isAl (c : Char) : Bool := c.isAlpha || c.isDigit

/-- Whitespace, modelling the `\s` class of the source regexes. -/
def isWsC (c : Char) : Bool := c = ' ' || c = '\t' || c = '\n' || c = '\r'

/-- Numeric value of a list of decimal digit characters (most significant
first), as computed by `parseInt`/`parseFloat` on an all-digit token. -/
def charsNat (l : List Char) : Nat := l.foldl (fun a c => 10 * a + (c.toNat - 48)) 0

/-- Comma-space separated join, the `parts.join(', ')` of the source. -/
def joinCS : List (List Char) → List Char
  | [] => []
  | [p] => p
  | p :: q :: r => p ++ ',' :: ' ' :: joinCS (q :: r)

/-! ## Association lists with JavaScript-object assignment semantics -/

/-- `m[k] = v` on a JS object: overwrite in place if the key exists,
append otherwise. -/
def assocSet {α : Type} : List (String × α) → String → α → List (String × α)
  | [], k, v => [(k, v)]
  | (k', v') :: rest, k, v =>
      if k' = k then (k', v) :: rest else (k', v') :: assocSet rest k v

/-- Property lookup `m[k]` on a JS object (first binding wins; bindings are
unique in objects built by `buildObj`). -/
def assocGet {α : Type} : List (String × α) → String → Option α
  | [], _ => none
  | (k', v') :: rest, k => if k' = k then some v' else assocGet rest k

/-- Build a JS object from a sequence of assignments `out[k] = v`. -/
def buildObj {α : Type} (l : List (String × α)) : List (String × α) :=
  l.foldl (fun m p => assocSet m p.1 p.2) []

/-! ## JavaScript numbers in decimal string form -/

/-- A finite JS number in plain decimal notation: sign, integer digits,
fraction digits (empty when `String()` prints no fraction). -/
structure DecNum where
  neg : Bool
  ip : List Char
  fp : List Char
deriving DecidableEq, Repr

/-- Well-formedness: the rendering has at least one integer digit and all
digit positions hold ASCII digits — exactly the shape `String()` produces
for a finite number rendered without an exponent. -/
def DecNum.Wf (d : DecNum) : Prop :=
  d.ip ≠ [] ∧ (∀ c ∈ d.ip, c.isDigit = true) ∧ (∀ c ∈ d.fp, c.isDigit = true)

instance (d : DecNum) : Decidable d.Wf := by unfold DecNum.Wf; infer_instance

/-- The characters `String()` produces for the number. -/
def DecNum.render (d : DecNum) : List Char :=
  (if d.neg then ['-'] else []) ++ d.ip ++ (if d.fp = [] then [] else '.' :: d.fp)

/-- Rational value denoted by the decimal form. -/
def DecNum.valQ (d : DecNum) : ℚ :=
  (if d.neg then -1 else 1) *
    ((charsNat d.ip : ℚ) + (charsNat d.fp : ℚ) / (10 : ℚ) ^ d.fp.length)

/-- A JS number as rendered by `String()`: plain decimal, scientific
notation (`<mantissa>e±<digits>`, used for magnitudes ≥ 1e21 or < 1e-6),
or `NaN`. -/
inductive JSNum where
  | dec (d : DecNum)
  | expo (m : DecNum) (epos : Bool) (eds : List Char)
  | nan
deriving DecidableEq, Repr

/-- The `String()` rendering of the number. -/
def JSNum.render : JSNum → List Char
  | .dec d => d.render
  | .expo m epos eds => m.render ++ 'e' :: (if epos then '+' else '-') :: eds
  | .nan => ['N', 'a', 'N']

/-- Rational value (`none` for `NaN`). -/
def JSNum.valQ : JSNum → Option ℚ
  | .dec d => some d.valQ
  | .expo m epos eds =>
      some (m.valQ * (10 : ℚ) ^ (if epos then (charsNat eds : ℤ) else -(charsNat eds : ℤ)))
  | .nan => none

/-- The source's `isNumber` (`typeof v === 'number' && !Number.isNaN(v)`),
restricted to number-typed values. -/
def JSNum.isNumberB : JSNum → Bool
  | .nan => false
  | _ => true

/-! ## The scanner behind the global-regex parsing helpers

`parseAxis` and `parseFeatures` run global regexes of the shape
`/"([A-Za-z0-9]{3,4})"\s+<value>/g` over a settings string.  `scanG` models
the `while ((m = re.exec(s)))` loop: scan left to right, attempt a match at
every `"`, record each match and continue after it.  The value part differs
between the regexes and is a parameter (`vm`).  Fuel (initially the string
length) makes the recursion structural so that terms reduce in the kernel. -/

/-- Attempt to match `([A-Za-z0-9]{3,4})"\s+<value>` directly after an
opening quote; returns the captured tag, the value, and the rest of the
input after the match. -/
def tryEntryG {β : Type} (vm : List Char → Option (β × List Char)) (l : List Char) :
    Option ((String × β) × List Char) :=
  let tg := l.takeWhile isAl
  let l1 := l.dropWhile isAl
  if tg.length = 3 ∨ tg.length = 4 then
    match l1 with
    | '"' :: l2 =>
        let sp := l2.takeWhile isWsC
        let l3 := l2.dropWhile isWsC
        if sp = [] then none
        else
          match vm l3 with
          | some (b, l4) => some ((⟨tg⟩, b), l4)
          | none => none
    | _ => none
  else none

def scanGAux {β : Type} (vm : List Char → Option (β × List Char)) :
    Nat → List Char → List (String × β)
  | _, [] => []
  | 0, _ :: _ => []
  | fuel + 1, c :: rest =>
      if c = '"' then
        match tryEntryG vm rest with
        | some (e, r) => e :: scanGAux vm fuel r
        | none => scanGAux vm fuel rest
      else scanGAux vm fuel rest

/-- All matches of the global regex with value matcher `vm` over a string. -/
def scanG {β : Type} (vm : List Char → Option (β × List Char)) (l : List Char) :
    List (String × β) :=
  scanGAux vm l.length l

/-- The digits-then-optional-fraction step of the `(-?\d+(\.\d+)?)` group,
after the optional sign has been consumed (`neg` records it). -/
def matchNumCore (neg : Bool) (l1 : List Char) : Option (JSNum × List Char) :=
  let ds := l1.takeWhile Char.isDigit
  let l2 := l1.dropWhile Char.isDigit
  if ds = [] then none
  else if l2.head? = some '.' ∧ l2.tail.takeWhile Char.isDigit ≠ [] then
    some (.dec ⟨neg, ds, l2.tail.takeWhile Char.isDigit⟩, l2.tail.dropWhile Char.isDigit)
  else some (.dec ⟨neg, ds, []⟩, l2)

/-- Value matcher for `parseAxis`: the `(-?\d+(\.\d+)?)` group.  The
captured text is kept as a plain-decimal `JSNum` (its `parseFloat` value). -/
def matchAxisNum (l : List Char) : Option (JSNum × List Char) :=
  matchNumCore (decide (l.head? = some '-')) (if l.head? = some '-' then l.tail else l)

/-- The digits step of the `(-?\d+)` group after the optional sign;
the match is converted with `parseInt(m[2], 10)`. -/
def matchIntCore (neg : Bool) (l1 : List Char) : Option (Int × List Char) :=
  let ds := l1.takeWhile Char.isDigit
  if ds = [] then none
  else some ((if neg then -(charsNat ds : Int) else (charsNat ds : Int)), l1.dropWhile Char.isDigit)

/-- Value matcher for the first `parseFeatures` regex: `(-?\d+)`. -/
def matchIntM (l : List Char) : Option (Int × List Char) :=
  matchIntCore (decide (l.head? = some '-')) (if l.head? = some '-' then l.tail else l)

/-- Value matcher for the second `parseFeatures` regex: `(on|off)`, stored
as `1`/`0`. -/
def matchFlagM (l : List Char) : Option (Int × List Char) :=
  if l.take 2 = ['o', 'n'] then some (1, l.drop 2)
  else if l.take 3 = ['o', 'f', 'f'] then some (0, l.drop 3)
  else none

/-! ## StyleStringBuilder: `axisToString` / `featuresToString` and the
corresponding parsers `parseAxis` / `parseFeatures` -/

/-- One emitted part `"<tag>" <value>` of `axisToString`.  The value is a
number, so `isNumber(v) ? v : parseFloat(String(v))` is the number itself
(for `NaN`, both routes render `NaN`). -/
def axisEntryChars (k : String) (v : JSNum) : List Char :=
  '"' :: k.data ++ '"' :: ' ' :: v.render

/-- `axisToString(axes)`: skip null entries, emit `"<tag>" <value>` parts,
join with `', '`.  The axis map is an insertion-ordered association list;
`none` values model `null`/`undefined` entries. -/
def axisToString (axes : List (String × Option JSNum)) : String :=
  ⟨joinCS ((axes.filterMap fun p => p.2.map (axisEntryChars p.1)))⟩

/-- `parseAxis(s)`: run `/"([A-Za-z0-9]{3,4})"\s+(-?\d+(\.\d+)?)/g` over the
string and assign `out[tag] = parseFloat(num)` for each match. -/
def parseAxis (s : String) : List (String × JSNum) :=
  buildObj (scanG matchAxisNum s.data)

/-- A feature-map value: a number, or any other JS value abstracted to its
truthiness (the source only reads non-number values through `v ? 'on' :
'off'`). -/
inductive FVal where
  | num (j : JSNum)
  | boolv (b : Bool)
deriving DecidableEq

/-- Truthiness of a feature value (`NaN` and `0` are falsy). -/
def FVal.truthy : FVal → Bool
  | .num .nan => false
  | .num (.dec d) => decide (d.valQ ≠ 0)
  | .num (.expo m _ _) => decide (m.valQ ≠ 0)
  | .boolv b => b

/-- The `on`/`off` text emitted for a truthy/falsy non-numeric value. -/
def flagChars (b : Bool) : List Char := if b then ['o', 'n'] else ['o', 'f', 'f']

/-- The value text of one `featuresToString` part: numeric values print
their number, anything else prints `on`/`off` by truthiness (`NaN` is not
a number to `isNumber`, so it prints its flag, `off`). -/
def featValChars : FVal → List Char
  | .num j => if j.isNumberB then j.render else flagChars (FVal.num j).truthy
  | .boolv b => flagChars b

/-- One emitted part `"<tag>" <value>` of `featuresToString`. -/
def featEntryChars (k : String) (v : FVal) : List Char :=
  '"' :: k.data ++ '"' :: ' ' :: featValChars v

/-- `featuresToString(features)`: skip null entries, emit the parts above,
join with `', '`. -/
def featuresToString (fs : List (String × Option FVal)) : String :=
  ⟨joinCS ((fs.filterMap fun p => p.2.map (featEntryChars p.1)))⟩

/-- `parseFeatures(s)`: run `/"([A-Za-z0-9]{3,4})"\s+(-?\d+)/g` assigning
`parseInt(m[2], 10)`, then `/"([A-Za-z0-9]{3,4})"\s+(on|off)/g` assigning
`1`/`0` into the same object (the flag pass overwrites on key collision). -/
def parseFeatures (s : String) : List (String × Int) :=
  buildObj (scanG matchIntM s.data ++ scanG matchFlagM s.data)

/-- `cssEscape(s)`: if the name contains whitespace or quote characters,
strip quote characters and wrap in double quotes; otherwise pass through. -/
def cssEscape (s : String) : String :=
  let needsQuotes := s.data.any fun c => isWsC c || c = '"' || c = '\''
  let safe := s.data.filter fun c => ¬(c = '"' ∨ c = '\'')
  if needsQuotes then ⟨'"' :: safe ++ ['"']⟩ else ⟨safe⟩

/-! ## The `/\d+\s+\d+/` test, `split(/\s+/)`, `parseInt`, `parseFloat` -/

/-- Match `\d+\s+\d+` anchored at the start of the input. -/
def varPatAt (l : List Char) : Bool :=
  let ds := l.takeWhile Char.isDigit
  let l1 := l.dropWhile Char.isDigit
  let sp := l1.takeWhile isWsC
  let l2 := l1.dropWhile isWsC
  decide (ds ≠ []) && decide (sp ≠ []) && (match l2 with | c :: _ => c.isDigit | [] => false)

/-- `/\d+\s+\d+/.test(s)`: an unanchored regex test — some suffix matches. -/
def testVarPat : List Char → Bool
  | [] => false
  | c :: rest => varPatAt (c :: rest) || testVarPat rest

/-- `s.split(/\s+/)` (fuel-based; leading/trailing separators produce empty
fields, as in JavaScript). -/
def splitWsAux : Nat → List Char → List Char → List String
  | _, [], acc => [⟨acc⟩]
  | 0, l, acc => [⟨acc ++ l⟩]
  | fuel + 1, c :: rest, acc =>
      if isWsC c then ⟨acc⟩ :: splitWsAux fuel (rest.dropWhile isWsC) []
      else splitWsAux fuel rest (acc ++ [c])

def splitWs (s : String) : List String := splitWsAux s.data.length s.data []

/-- `parseInt(tok, 10)` on a token: optional sign then leading digits;
no digits means `NaN` (`none`).  (The `0x` prefix of radix-0/16 parsing is
not modelled; the tokens exercised here are plain decimal.) -/
def parseIntB10 (s : String) : Option Int :=
  let l := s.data.dropWhile isWsC
  let neg := match l with | '-' :: _ => true | _ => false
  let l1 := match l with | '-' :: r => r | '+' :: r => r | _ => l
  let ds := l1.takeWhile Char.isDigit
  if ds = [] then none
  else some (if neg then -(charsNat ds : Int) else (charsNat ds : Int))

/-- `parseFloat(s)`: leading whitespace, optional sign, decimal digits with
optional fraction and optional exponent; `none` models `NaN`.  (`Infinity`
is not modelled.) -/
def parseFloatS (s : String) : Option ℚ :=
  let l := s.data.dropWhile isWsC
  let neg := match l with | '-' :: _ => true | _ => false
  let l1 := match l with | '-' :: r => r | '+' :: r => r | _ => l
  let ip := l1.takeWhile Char.isDigit
  let l2 := l1.dropWhile Char.isDigit
  let fpr := match l2 with | '.' :: r => some r | _ => none
  let fp := match fpr with | some r => r.takeWhile Char.isDigit | none => []
  let l3 := match fpr with | some r => r.dropWhile Char.isDigit | none => l2
  if ip = [] ∧ fp = [] then none
  else
    let mant : ℚ :=
      (if neg then -1 else 1) * ((charsNat ip : ℚ) + (charsNat fp : ℚ) / (10 : ℚ) ^ fp.length)
    let ex : ℤ :=
      match l3 with
      | c :: r =>
          if c = 'e' ∨ c = 'E' then
            let es := match r with | '-' :: _ => true | _ => false
            let r1 := match r with | '-' :: rr => rr | '+' :: rr => rr | _ => r
            let eds := r1.takeWhile Char.isDigit
            if eds = [] then 0 else (if es then -(charsNat eds : ℤ) else (charsNat eds : ℤ))
          else 0
      | [] => 0
    some (mant * (10 : ℚ) ^ ex)

/-- A value matcher only consumes input. -/
def Hvm {β : Type} (vm : List Char → Option (β × List Char)) : Prop :=
  ∀ l b r, vm l = some (b, r) → r.length ≤ l.length

/-- A syntactically valid settings tag: 3–4 ASCII alphanumeric characters,
the shape the `([A-Za-z0-9]{3,4})` capture group accepts. -/
def ValidTag (t : String) : Prop :=
  (t.data.length = 3 ∨ t.data.length = 4) ∧ ∀ c ∈ t.data, isAl c = true

instance (t : String) : Decidable (ValidTag t) := by unfold ValidTag; infer_instance

/-- One entry of a rendered settings string, for the generic scan lemma:
a tag, the rendered value characters, and the value the matcher extracts
(`none` when this scanner's regex does not accept this value). -/
structure ScanItem (β : Type) where
  tag : String
  vc : List Char
  res : Option β

/-- The characters `"<tag>" <value>` of one entry. -/
def itemChars {β : Type} (i : ScanItem β) : List Char :=
  '"' :: i.tag.data ++ '"' :: ' ' :: i.vc

/-- A full rendered settings string. -/
def renderItems {β : Type} (items : List (ScanItem β)) : List Char :=
  joinCS (items.map itemChars)

/-- What can follow a value in a rendered settings string: nothing, or a
comma separator. -/
def SepNil (tail : List Char) : Prop := tail = [] ∨ ∃ t', tail = ',' :: t'

/-- The conditions under which an entry scans predictably: a valid tag;
nonempty value text that starts with neither whitespace nor a quote and
contains no quote; and the matcher either accepts exactly the value text
(result `some`) or rejects it (result `none`), whichever separator
follows. -/
def ItemOk {β : Type} (vm : List Char → Option (β × List Char)) (i : ScanItem β) : Prop :=
  ValidTag i.tag ∧ i.vc ≠ [] ∧ (∀ c, i.vc.head? = some c → isWsC c = false) ∧
    (∀ c ∈ i.vc, c ≠ '"') ∧
    (∀ tail, SepNil tail →
      match i.res with
      | some b => vm (i.vc ++ tail) = some (b, tail)
      | none => vm (i.vc ++ tail) = none)

/-- The non-null entries of a JS-object map, in iteration order — the
entries `axisToString`/`featuresToString` actually emit. -/
def nonNull {α : Type} (l : List (String × Option α)) : List (String × α) :=
  l.filterMap fun p => p.2.map ((p.1, ·))

/-- What the numeric pass of `parseFeatures` extracts from one rendered
feature value (`none` when `(-?\d+)` does not match it). -/
def intRes : FVal → Option Int
  | .num (.dec d) => some (if d.neg then -(charsNat d.ip : Int) else (charsNat d.ip : Int))
  | _ => none

/-- What the `on`/`off` pass of `parseFeatures` extracts from one
rendered feature value. -/
def flagRes : FVal → Option Int
  | .boolv b => some (if b then 1 else 0)
  | _ => none

/-- The integer a feature entry round-trips to: numeric values their
integer, truthy flags `1`, falsy flags `0`. -/
def fvalInt : FVal → Int
  | .num (.dec d) => if d.neg then -(charsNat d.ip : Int) else (charsNat d.ip : Int)
  | .num _ => 0
  | .boolv b => if b then 1 else 0

/-- A feature value in the round-trippable fragment: an integer rendered
in plain decimal, or a boolean-ish (truthiness-only) value. -/
def GoodFVal (v : FVal) : Prop :=
  (∃ d, v = .num (.dec d) ∧ d.Wf ∧ d.fp = []) ∨ (∃ b, v = .boolv b)

/-! ## The font manager data model -/

structure SrcEntry where
  url : String
  format : Option String := none
deriving DecidableEq, Repr

/-- A descriptor weight: a number or a string (e.g. `"100 900"`). -/
inductive WeightV where
  | wnum (q : ℚ)
  | wstr (s : String)
deriving DecidableEq, Repr

/-- A registered font: the source's normalized descriptor (name, sources,
the descriptor fields used by selection, fallback chain, language tags). -/
structure NFont where
  name : String
  src : List SrcEntry := []
  weight : Option WeightV := none
  display : Option String := some "swap"
  fallback : List String := []
  languages : List String := []
deriving DecidableEq, Repr

/-- A caller-supplied font descriptor (`loadFont` input).  `none` in
`name` models a missing/falsy name, `none` in `src` a missing or
non-array source field. -/
structure FontDescIn where
  name : Option String := none
  src : Option (List SrcEntry) := none
  weight : Option WeightV := none
  display : Option String := none
  fallback : Option (List String) := none
  languages : Option (List String) := none
deriving DecidableEq, Repr

/-- Manager state: the registry (name → normalized descriptor, insertion
ordered, as a JS `Map`), the default language and default fallback chain
(constructor defaults as in the source). -/
structure MgrState where
  registry : List (String × NFont) := []
  defaultLanguage : String := "en"
  defaultFallback : List String :=
    ["system-ui", "Segoe UI", "Apple SD Gothic Neo", "Noto Sans KR", "sans-serif"]
deriving DecidableEq, Repr

/-- `registry.all()`: descriptors in insertion order (JS `Map` values). -/
def regAll (st : MgrState) : List NFont := st.registry.map Prod.snd

inductive LoadStatus where
  | loaded
  | injected
  | failed
deriving DecidableEq, Repr

/-- The externally observable steps of one `loadFont` call, in source
order: the loader call, the registry write, the `load` event, the
`waitFor` probe, the `ready` event. -/
inductive FAction where
  | attempt (name : String)
  | regSet (name : String)
  | evLoad (name : String) (status : LoadStatus)
  | waitProbe (name : String)
  | evReady (name : String) (ok : Bool)
deriving DecidableEq, Repr

/-- Normalization performed by `loadFont`: merge `display: 'swap'` under
the given descriptors, default the fallback chain, default languages to
`[]`. -/
def normalizeDesc (d : FontDescIn) (n : String) (srcs : List SrcEntry) (st : MgrState) :
    NFont :=
  { name := n
    src := srcs
    weight := d.weight
    display := match d.display with | some x => some x | none => some "swap"
    fallback := d.fallback.getD st.defaultFallback
    languages := d.languages.getD [] }

/-- `loadFont(desc)`: validate (`!desc || !desc.name || !Array.isArray(desc.src)
|| desc.src.length === 0` throws), normalize, load (the asynchronous
loader outcome is supplied by the environment as `lr`), register, emit
`load`, run the `waitFor` probe (outcome `wok`), emit `ready`.  Returns
the new state, the ordered action trace, and the result; `Except.error`
models the thrown validation error. -/
def loadFont (st : MgrState) (desc : Option FontDescIn) (lr : LoadStatus) (wok : Bool) :
    MgrState × List FAction × Except String (String × Bool × LoadStatus) :=
  match desc with
  | none => (st, [], .error "Invalid font descriptor: missing name/src")
  | some d =>
      match d.name with
      | none => (st, [], .error "Invalid font descriptor: missing name/src")
      | some n =>
          if n = "" then (st, [], .error "Invalid font descriptor: missing name/src")
          else
            match d.src with
            | none => (st, [], .error "Invalid font descriptor: missing name/src")
            | some srcs =>
                if srcs = [] then (st, [], .error "Invalid font descriptor: missing name/src")
                else
                  let normalized := normalizeDesc d n srcs st
                  ({ st with registry := assocSet st.registry n normalized },
                    [.attempt n, .regSet n, .evLoad n lr, .waitProbe n, .evReady n wok],
                    .ok (n, wok, lr))

/-- `composeFamily(primary, fallback, languages)`: primary first, then
the names of registered fonts whose languages meet the desired language
set, excluding the primary, then the fallback chain; falsy names are
skipped by `add`, names are CSS-escaped, parts are comma-joined. -/
def composeFamily (st : MgrState) (primary : String) (fallback : Option (List String))
    (languages : Option (List String)) : String :=
  let langSet := ((match languages with
    | some l => if l ≠ [] then l else [st.defaultLanguage]
    | none => [st.defaultLanguage]).filter (fun x => x ≠ ""))
  let langMatches := (regAll st).filterMap fun f =>
    if f.languages ≠ [] ∧ f.languages.any (fun l => langSet.contains l) then some f.name
    else none
  let parts :=
    (if primary ≠ "" then [cssEscape primary] else []) ++
      ((langMatches.filter (fun lm => lm ≠ primary)).filterMap fun lm =>
        if lm ≠ "" then some (cssEscape lm) else none) ++
      ((fallback.getD st.defaultFallback).filterMap fun fb =>
        if fb ≠ "" then some (cssEscape fb) else none)
  String.intercalate ", " parts

/-! ## Selection -/

structure SelCrit where
  languages : Option (List String) := none
  variableOpt : Option Bool := none
  weightRange : Option (ℚ × ℚ) := none
  prefer : Option String := none
deriving DecidableEq, Repr

/-- `supportsVariableWeight(f)`: the descriptor weight is a string and
`/\d+\s+\d+/` tests true on it. -/
def supportsVariableWeight (f : NFont) : Bool :=
  match f.weight with
  | some (.wstr s) => testVarPat s.data
  | _ => false

/-- `supportsWeightRange(f, [min, max])`: a weight string matching the
`/\d+\s+\d+/` pattern is split on whitespace and its first two tokens
are parsed with `parseInt(x, 10)` (`const [a, b] = w.split(/\s+/).map((x)
=> parseInt(x, 10))`); the result is the containment check `a <= min &&
b >= max`, where `none` models a `NaN` or missing bound, whose
comparisons are false.  A numeric weight must lie within the range; any
other weight passes. -/
def supportsWeightRange (f : NFont) (mn mx : ℚ) : Bool :=
  match f.weight with
  | some (.wstr s) =>
      if testVarPat s.data then
        let bounds := (splitWs s).map parseIntB10
        let a : Option Int := bounds.getD 0 none
        let b : Option Int := bounds.getD 1 none
        (match a with | some av => decide ((av : ℚ) ≤ mn) | none => false) &&
          (match b with | some bv => decide (mx ≤ (bv : ℚ)) | none => false)
      else true
  | some (.wnum q) => decide (mn ≤ q ∧ q ≤ mx)
  | none => true

/-- `scoreLang(fontLangs, desired)`: 0 for an empty declared set,
otherwise the number of desired tags the font declares. -/
def scoreLang (fontLangs : List String) (desired : List String) : Int :=
  if fontLangs = [] then 0
  else ((desired.filter fun d => fontLangs.contains d).length : Int)

def lcmpChars : List Char → List Char → Int
  | [], [] => 0
  | [], _ :: _ => -1
  | _ :: _, [] => 1
  | a :: as, b :: bs =>
      if a.toNat < b.toNat then -1 else if b.toNat < a.toNat then 1 else lcmpChars as bs

/-- `a.localeCompare(b)` modelled as code-unit lexicographic comparison
(locale-sensitive collation is environment-dependent). -/
def localeCmp (a b : String) : Int := lcmpChars a.data b.data

def lowerS (s : String) : String := ⟨s.data.map Char.toLower⟩

def containsSub : List Char → List Char → Bool
  | [], n => n.isEmpty
  | c :: rest, n => n.isPrefixOf (c :: rest) || containsSub rest n

/-- `h.includes(n)`. -/
def includesS (h n : String) : Bool := containsSub h.data n.data

/-- The ranking comparator of `select`: variable-weight support
descending, language score descending, (when a preference is given)
preference match descending, then name order. -/
def selCmp (langs : List String) (pref : Option String) (a b : NFont) : Int :=
  let avar : Int := if supportsVariableWeight a then 1 else 0
  let bvar : Int := if supportsVariableWeight b then 1 else 0
  if avar ≠ bvar then bvar - avar
  else
    let alang := scoreLang a.languages langs
    let blang := scoreLang b.languages langs
    if alang ≠ blang then blang - alang
    else
      match pref with
      | some p =>
          if p ≠ "" then
            let ap : Int := if includesS (lowerS a.name) (lowerS p) then 1 else 0
            let bp : Int := if includesS (lowerS b.name) (lowerS p) then 1 else 0
            if ap ≠ bp then bp - ap else localeCmp a.name b.name
          else localeCmp a.name b.name
      | none => localeCmp a.name b.name

def selRel (langs : List String) (pref : Option String) (a b : NFont) : Prop :=
  selCmp langs pref a b ≤ 0

instance (langs : List String) (pref : Option String) (a b : NFont) :
    Decidable (selRel langs pref a b) := by
  unfold selRel; infer_instance

/-- The language filter of `select`: a font with no declared languages
matches anything. -/
def hasLangB (f : NFont) (langs : List String) : Bool :=
  f.languages.isEmpty || f.languages.any fun l => langs.contains l

/-- The variable-weight filter of `select`. -/
def hasVarB (variableB : Bool) (f : NFont) : Bool :=
  if variableB then supportsVariableWeight f else true

/-- The weight-range filter of `select` (skipped when no range given). -/
def weightOkB (wr : Option (ℚ × ℚ)) (f : NFont) : Bool :=
  match wr with
  | some (mn, mx) => supportsWeightRange f mn mx
  | none => true

/-- The name-preference filter of `select` (an empty preference is falsy
and skipped). -/
def preferredB (pref : Option String) (f : NFont) : Bool :=
  match pref with
  | some p => if p ≠ "" then includesS (lowerS f.name) (lowerS p) else true
  | none => true

/-- `select(criteria)`: filter the registry, then rank with the
comparator via `Array.prototype.sort` (a stable sort, modelled as stable
insertion sort). -/
def select (st : MgrState) (c : SelCrit) : List NFont :=
  let langs := c.languages.getD [st.defaultLanguage]
  let variableB := c.variableOpt.getD true
  let cand := (regAll st).filter fun f =>
    hasLangB f langs && hasVarB variableB f && weightOkB c.weightRange f &&
      preferredB c.prefer f
  List.insertionSort (selRel langs c.prefer) cand

/-- The preference key of the ranking comparator: 1 when a non-empty
preference is given and the font's lowercased name contains it, 0 when
it does not, and 0 for every font when no preference is given (the
comparator then never reaches the preference comparison). -/
def prefScore (pref : Option String) (f : NFont) : Int :=
  match pref with
  | some p => if p ≠ "" then (if includesS (lowerS f.name) (lowerS p) then 1 else 0) else 0
  | none => 0

/-- A three-key descending lexicographic comparator with a final
tie-break value, the shape of the `select` ranking comparator. -/
def lexCmp3 (x1 x2 x3 y1 y2 y3 last : Int) : Int :=
  if x1 ≠ y1 then y1 - x1
  else if x2 ≠ y2 then y2 - x2
  else if x3 ≠ y3 then y3 - x3
  else last

/-- The variable font of the claim's `select` example (declared weight
range `100 900`). -/
def c6Var : NFont := { name := "VarFont", weight := some (.wstr "100 900") }

/-- The fixed-weight font of the claim's `select` example. -/
def c6Fixed : NFont := { name := "FixedFont", weight := some (.wnum 400) }

/-- The example registry: the variable font and the fixed font. -/
def c6St : MgrState := { registry := [("VarFont", c6Var), ("FixedFont", c6Fixed)] }

/-! ## StyleInjector -/

/-- The injector state: whether the shared style element was created, the
text nodes appended to it (in order), and the `rules` set of injected
texts. -/
structure Injector where
  created : Bool := false
  appended : List String := []
  rules : List String := []
deriving DecidableEq, Repr

def ensureNode (i : Injector) : Injector := { i with created := true }

/-- `inject(cssText)`: ensure the style element, then append a text node
only if this exact text was not injected before. -/
def inject (i : Injector) (cssText : String) : Injector :=
  let i := ensureNode i
  if cssText ∈ i.rules then i
  else { i with appended := i.appended ++ [cssText], rules := i.rules ++ [cssText] }

/-- A sequence of `inject` calls on a fresh injector. -/
def injectAll (ts : List String) : Injector := ts.foldl inject {}

/-! ## FontMetrics.estimateLineHeight -/

/-- A style field value: a number or a string (the shapes the style input
declares for `size`/`lineHeight`). -/
inductive LHV where
  | num (q : ℚ)
  | str (s : String)
deriving DecidableEq, Repr

def LHV.truthy : LHV → Bool
  | .num q => decide (q ≠ 0)
  | .str s => decide (s ≠ "")

structure MStyle where
  size : Option LHV := none
  lineHeight : Option LHV := none
deriving DecidableEq, Repr

/-- `style.size || 16`: JavaScript or-default with truthiness. -/
def jsOrLHV (v : Option LHV) (dflt : LHV) : LHV :=
  match v with
  | some x => if x.truthy then x else dflt
  | none => dflt

/-- `toUnitless(v)`: a number stays itself, a string is `parseFloat`ed. -/
def toUnitless : LHV → Option ℚ
  | .num q => some q
  | .str s => parseFloatS s

/-- Multiplication with `NaN` (`none`) propagation. -/
def omul (a b : Option ℚ) : Option ℚ :=
  match a, b with
  | some x, some y => some (x * y)
  | _, _ => none

/-- `s.endsWith(suffix)`. -/
def endsWithS (s suffix : String) : Bool := List.isSuffixOf suffix.data s.data

/-- `estimateLineHeight(style)`: default `1.25 ×` size, numeric
multiplier, absolute `px`, percentage of size, or bare parsed
multiplier. -/
def estimateLineHeight (style : MStyle) : Option ℚ :=
  let size := toUnitless (jsOrLHV style.size (.num 16))
  match style.lineHeight with
  | none => omul size (some (5 / 4))
  | some (.num l) => omul size (some l)
  | some (.str t) =>
      if endsWithS t "px" then parseFloatS t
      else if endsWithS t "%" then omul size ((parseFloatS t).map fun x => x / 100)
      else omul size (parseFloatS t)

/-! ## Per-element variable axis utilities -/

/-- `setAxis(el, axisName, value)` on the element's current
`font-variation-settings` string: parse, assign, re-serialize. -/
def setAxis (s : String) (axisName : String) (v : JSNum) : String :=
  axisToString ((assocSet (parseAxis s) axisName v).map fun p => (p.1, some p.2))

/-- `getAxis(el, axisName)`. -/
def getAxis (s : String) (axisName : String) : Option JSNum :=
  assocGet (parseAxis s) axisName

/-- First-occurrence deduplication of a sequence of rule texts (the
claim-side description of what `inject` accumulates). -/
def firstOccs : List String → List String
  | [] => []
  | t :: ts => t :: (firstOccs ts).filter fun x => x ≠ t

/-- Counterexample input for the axis round trip: a two-character tag,
and an axis value whose `String()` rendering is scientific notation
(`1e+21`, the rendering of the finite number `1e21`). -/
def axCex : List (String × Option JSNum) :=
  [("ab", some (.dec ⟨false, ['1'], []⟩)),
    ("wght", some (.expo ⟨false, ['1'], []⟩ true ['2', '1']))]

/-- Witness input for the axis round trip: three entries including a
null one and a negative fractional value. -/
def axWit : List (String × Option JSNum) :=
  [("wght", some (.dec ⟨false, ['5', '0', '0'], []⟩)),
    ("slnt", some (.dec ⟨true, ['1', '0'], ['5']⟩)),
    ("opsz", none)]

/-- Counterexample input for the feature round trip: a two-character tag
with an integer value, and a valid tag with the non-integer value 1.5. -/
def featCex : List (String × Option FVal) :=
  [("ab", some (.num (.dec ⟨false, ['2'], []⟩))),
    ("liga", some (.num (.dec ⟨false, ['1'], ['5']⟩)))]

/-- Witness input for the feature round trip: flags, a positive and a
negative integer, and a null entry. -/
def featWit : List (String × Option FVal) :=
  [("liga", some (.boolv true)),
    ("cv01", some (.num (.dec ⟨false, ['2'], []⟩))),
    ("kern", some (.boolv false)),
    ("ss01", some (.num (.dec ⟨true, ['3'], []⟩))),
    ("opsz", none)]

/-- The claim-side description of `composeFamily`, written from its
wording: the primary name first, then every registered font whose
declared languages intersect the desired language set (the `languages`
argument, defaulting to the manager's default language), in registry
iteration order and excluding the primary, then the explicit or default
fallback chain; names CSS-escaped and comma-joined. -/
def composeFamilySpec (st : MgrState) (primary : String) (fallback : Option (List String))
    (languages : Option (List String)) : String :=
  let desired := languages.getD [st.defaultLanguage]
  let langMatches := (regAll st).filterMap fun f =>
    if f.languages.any (fun l => desired.contains l) then some f.name else none
  String.intercalate ", "
    ([cssEscape primary] ++
      (langMatches.filter (fun lm => lm ≠ primary)).map cssEscape ++
      (fallback.getD st.defaultFallback).map cssEscape)

/-- The two registered fonts of the claim's example: `Inter` tagged
`latin`, `Noto Sans KR` tagged `ko`. -/
def demoSt : MgrState :=
  { registry :=
      [("Inter", { name := "Inter", languages := ["latin"] }),
        ("Noto Sans KR", { name := "Noto Sans KR", languages := ["ko", "ja"] })] }

/-! ## Scanner lemmas -/

theorem length_dropWhile_le {α : Type} (p : α → Bool) (l : List α) :
    (l.dropWhile p).length ≤ l.length := by
  induction l with
  | nil => simp [List.dropWhile]
  | cons a l ih =>
      by_cases h : p a
      · rw [List.dropWhile_cons_of_pos h]; exact Nat.le_succ_of_le ih
      · rw [List.dropWhile_cons_of_neg h]

theorem tryEntryG_le {β : Type} {vm : List Char → Option (β × List Char)} (hvm : Hvm vm)
    {l : List Char} {e : String × β} {r : List Char}
    (h : tryEntryG vm l = some (e, r)) : r.length ≤ l.length := by
  simp only [tryEntryG] at h
  split at h
  · split at h
    · next l1 l2 heq =>
        split at h
        · exact absurd h (by simp)
        · split at h
          · next x b l4 hvmeq =>
              injection h with h1
              injection h1 with h2 h3
              subst h3
              calc l4.length ≤ (l2.dropWhile isWsC).length := hvm _ _ _ hvmeq
                _ ≤ l2.length := length_dropWhile_le _ _
                _ ≤ l.length := by
                    have hlen : ('"' :: l2).length ≤ l.length := by
                      rw [← heq]; exact length_dropWhile_le _ _
                    simpa using Nat.le_of_succ_le hlen
          · exact absurd h (by simp)
    · exact absurd h (by simp)
  · exact absurd h (by simp)

theorem scanGAux_congr {β : Type} {vm : List Char → Option (β × List Char)} (hvm : Hvm vm) :
    ∀ f1 f2 l, l.length ≤ f1 → l.length ≤ f2 → scanGAux vm f1 l = scanGAux vm f2 l := by
  intro f1
  induction f1 with
  | zero =>
      intro f2 l h1 _
      have hl : l = [] := List.length_eq_zero.mp (Nat.le_zero.mp h1)
      subst hl
      simp [scanGAux]
  | succ f1 ih =>
      intro f2 l h1 h2
      cases l with
      | nil => simp [scanGAux]
      | cons c rest =>
          cases f2 with
          | zero => simp at h2
          | succ f2 =>
              have hrest : rest.length ≤ f1 := by simpa using Nat.le_of_succ_le_succ h1
              have hrest2 : rest.length ≤ f2 := by simpa using Nat.le_of_succ_le_succ h2
              by_cases hc : c = '"'
              · subst hc
                simp only [scanGAux, if_pos rfl]
                cases heq : tryEntryG vm rest with
                | none => simp only [heq]; exact ih f2 rest hrest hrest2
                | some er =>
                    obtain ⟨e, r⟩ := er
                    have hr : r.length ≤ rest.length := tryEntryG_le hvm heq
                    simp only [heq]
                    rw [ih f2 r (le_trans hr hrest) (le_trans hr hrest2)]
                    simp
              · simp only [scanGAux, if_neg hc]
                exact ih f2 rest hrest hrest2

theorem scanG_nil {β : Type} (vm : List Char → Option (β × List Char)) : scanG vm [] = [] := rfl

theorem scanG_cons_ne {β : Type} (vm : List Char → Option (β × List Char)) {c : Char}
    (hc : c ≠ '"') (l : List Char) : scanG vm (c :: l) = scanG vm l := by
  simp only [scanG, List.length_cons, scanGAux, if_neg hc]

theorem scanG_quote_none {β : Type} {vm : List Char → Option (β × List Char)} {l : List Char}
    (h : tryEntryG vm l = none) : scanG vm ('"' :: l) = scanG vm l := by
  simp [scanG, scanGAux, h]

theorem scanG_quote_some {β : Type} {vm : List Char → Option (β × List Char)} (hvm : Hvm vm)
    {l : List Char} {e : String × β} {r : List Char}
    (h : tryEntryG vm l = some (e, r)) : scanG vm ('"' :: l) = e :: scanG vm r := by
  simp only [scanG, List.length_cons, scanGAux, if_pos rfl, h]
  exact congrArg (e :: ·) (scanGAux_congr hvm _ _ _ (tryEntryG_le hvm h) le_rfl)

theorem scanG_append_noquote {β : Type} (vm : List Char → Option (β × List Char))
    {l1 : List Char} (h : ∀ c ∈ l1, c ≠ '"') (l2 : List Char) :
    scanG vm (l1 ++ l2) = scanG vm l2 := by
  induction l1 with
  | nil => rfl
  | cons c rest ih =>
      rw [List.cons_append, scanG_cons_ne vm (h c (by simp)) _]
      exact ih fun c hc => h c (by simp [hc])

/-! ## Rendered settings strings scan back to their entries -/

theorem isAl_ne_quote {c : Char} (h : isAl c = true) : c ≠ '"' := by
  rintro rfl; simp [isAl] at h

theorem tryEntryG_head_notAl {β : Type} (vm : List Char → Option (β × List Char)) {c : Char}
    (hc : isAl c = false) (l : List Char) : tryEntryG vm (c :: l) = none := by
  simp only [tryEntryG]
  rw [List.takeWhile_cons_of_neg (by simp [hc])]
  simp

/-- Computation of `tryEntryG` on the text following the opening quote of a
well-formed rendered entry. -/
theorem tryEntryG_at {β : Type} (vm : List Char → Option (β × List Char)) {t : String}
    (ht : ValidTag t) {vc : List Char} (hne : vc ≠ [])
    (hws : ∀ c, vc.head? = some c → isWsC c = false) (tail : List Char) :
    tryEntryG vm (t.data ++ '"' :: ' ' :: (vc ++ tail)) =
      match vm (vc ++ tail) with
      | some (b, r) => some ((t, b), r)
      | none => none := by
  obtain ⟨c, vc', rfl⟩ := List.exists_cons_of_ne_nil hne
  have hcws : ¬ isWsC c = true := by simp [hws c rfl]
  simp only [List.cons_append]
  have htake : List.takeWhile isAl (t.data ++ '"' :: ' ' :: c :: (vc' ++ tail)) = t.data := by
    rw [List.takeWhile_append_of_pos ht.2, List.takeWhile_cons_of_neg (by decide)]
    simp
  have hdrop : List.dropWhile isAl (t.data ++ '"' :: ' ' :: c :: (vc' ++ tail)) =
      '"' :: ' ' :: c :: (vc' ++ tail) := by
    rw [List.dropWhile_append_of_pos ht.2, List.dropWhile_cons_of_neg (by decide)]
  simp only [tryEntryG, htake, hdrop, if_pos ht.1]
  rw [List.takeWhile_cons_of_pos (by decide), List.takeWhile_cons_of_neg hcws,
    List.dropWhile_cons_of_pos (by decide), List.dropWhile_cons_of_neg hcws]
  simp

/-- Scanning a rendered settings string recovers exactly the entries the
matcher accepts, in order. -/
theorem scanG_renderItems {β : Type} {vm : List Char → Option (β × List Char)} (hvm : Hvm vm)
    (items : List (ScanItem β)) (h : ∀ i ∈ items, ItemOk vm i) :
    scanG vm (renderItems items) = items.filterMap (fun i => i.res.map ((i.tag, ·))) := by
  induction items with
  | nil => simp [renderItems, joinCS, scanG_nil]
  | cons i rest ih =>
      obtain ⟨htag, hne, hws, hnq, hres⟩ := h i (by simp)
      have hrest : ∀ j ∈ rest, ItemOk vm j := fun j hj => h j (by simp [hj])
      -- the text after this entry's value
      set tailPart : List Char :=
        (match rest with | [] => [] | _ :: _ => ',' :: ' ' :: renderItems rest) with htp
      have hsep : SepNil tailPart := by
        cases rest with
        | nil => exact Or.inl rfl
        | cons j js => exact Or.inr ⟨_, rfl⟩
      have hrender : renderItems (i :: rest) =
          '"' :: (i.tag.data ++ '"' :: ' ' :: (i.vc ++ tailPart)) := by
        cases rest with
        | nil => simp [renderItems, joinCS, itemChars, htp]
        | cons j js => simp [renderItems, joinCS, itemChars, htp]
      have hscanTail : scanG vm tailPart = rest.filterMap (fun j => j.res.map ((j.tag, ·))) := by
        cases rest with
        | nil => simp [htp, scanG_nil]
        | cons j js =>
            rw [htp]
            rw [scanG_cons_ne vm (by decide), scanG_cons_ne vm (by decide)]
            exact ih hrest
      rw [hrender]
      have hvmres := hres tailPart hsep
      cases hresv : i.res with
      | some b =>
          rw [hresv] at hvmres
          have hentry := tryEntryG_at vm htag hne hws tailPart
          rw [hvmres] at hentry
          rw [scanG_quote_some hvm hentry, hscanTail]
          simp [hresv]
      | none =>
          rw [hresv] at hvmres
          have hentry := tryEntryG_at vm htag hne hws tailPart
          rw [hvmres] at hentry
          rw [scanG_quote_none hentry]
          rw [scanG_append_noquote vm (fun c hc => isAl_ne_quote (htag.2 c hc))]
          rw [scanG_quote_none (tryEntryG_head_notAl vm (by decide) _)]
          rw [scanG_cons_ne vm (by decide)]
          rw [scanG_append_noquote vm hnq]
          rw [hscanTail]
          simp [hresv]

/-! ## Matcher computation lemmas -/

theorem takeWhile_head_neg {α : Type} {p : α → Bool} {l : List α}
    (h : ∀ c, l.head? = some c → p c = false) : l.takeWhile p = [] := by
  cases l with
  | nil => rfl
  | cons a l => rw [List.takeWhile_cons_of_neg (by simp [h a rfl])]

theorem dropWhile_head_neg {α : Type} {p : α → Bool} {l : List α}
    (h : ∀ c, l.head? = some c → p c = false) : l.dropWhile p = l := by
  cases l with
  | nil => rfl
  | cons a l => rw [List.dropWhile_cons_of_neg (by simp [h a rfl])]

theorem takeWhile_exact {α : Type} {p : α → Bool} {l1 l2 : List α}
    (h1 : ∀ c ∈ l1, p c = true) (h2 : ∀ c, l2.head? = some c → p c = false) :
    (l1 ++ l2).takeWhile p = l1 ∧ (l1 ++ l2).dropWhile p = l2 := by
  constructor
  · rw [List.takeWhile_append_of_pos h1, takeWhile_head_neg h2, List.append_nil]
  · rw [List.dropWhile_append_of_pos h1, dropWhile_head_neg h2]

theorem isWsC_false_of_digit {c : Char} (h : c.isDigit = true) : isWsC c = false := by
  simp only [isWsC, Bool.or_eq_false_iff, decide_eq_false_iff_not]
  refine ⟨⟨⟨?_, ?_⟩, ?_⟩, ?_⟩ <;> rintro rfl <;> simp [Char.isDigit] at h

theorem ne_quote_of_digit {c : Char} (h : c.isDigit = true) : c ≠ '"' := by
  rintro rfl; exact absurd h (by decide)

theorem ne_of_digit {c c' : Char} (h : c.isDigit = true) (h' : c'.isDigit = false) : c ≠ c' := by
  rintro rfl; rw [h] at h'; simp at h'

theorem matchAxisNum_dash (l : List Char) :
    matchAxisNum ('-' :: l) = matchNumCore true l := by
  simp [matchAxisNum]

theorem matchAxisNum_nodash {l : List Char} (h : l.head? ≠ some '-') :
    matchAxisNum l = matchNumCore false l := by
  simp [matchAxisNum, if_neg h, decide_eq_false h]

theorem matchIntM_dash (l : List Char) : matchIntM ('-' :: l) = matchIntCore true l := by
  simp [matchIntM]

theorem matchIntM_nodash {l : List Char} (h : l.head? ≠ some '-') :
    matchIntM l = matchIntCore false l := by
  simp [matchIntM, if_neg h, decide_eq_false h]

/-- `matchNumCore` on the unsigned part of a rendered decimal followed by a
tail that starts with neither a digit nor a dot consumes exactly the
rendered digits. -/
theorem matchNumCore_render (neg : Bool) {ip fp tail : List Char} (hipne : ip ≠ [])
    (hipd : ∀ c ∈ ip, c.isDigit = true) (hfpd : ∀ c ∈ fp, c.isDigit = true)
    (htail : ∀ c, tail.head? = some c → c.isDigit = false ∧ c ≠ '.') :
    matchNumCore neg (ip ++ ((if fp = [] then ([] : List Char) else '.' :: fp) ++ tail)) =
      some (.dec ⟨neg, ip, fp⟩, tail) := by
  have hfrac : ∀ c, ((if fp = [] then ([] : List Char) else '.' :: fp) ++ tail).head? = some c →
      c.isDigit = false := by
    intro c hc
    by_cases hfp : fp = []
    · simp only [hfp, if_pos rfl, List.nil_append] at hc
      exact (htail c hc).1
    · simp only [if_neg hfp, List.cons_append, List.head?_cons, Option.some.injEq] at hc
      subst hc; decide
  have hsplit := takeWhile_exact hipd hfrac
  simp only [matchNumCore, hsplit.1, hsplit.2, if_neg hipne]
  by_cases hfp : fp = []
  · subst hfp
    simp only [if_pos rfl, List.nil_append]
    rw [if_neg (fun hand => (htail _ hand.1).2 rfl)]
    simp
  · simp only [if_neg hfp, List.cons_append, List.head?_cons, List.tail_cons]
    have hf := takeWhile_exact hfpd (fun c hc => (htail c hc).1)
    rw [if_pos ⟨by trivial, by rw [hf.1]; exact hfp⟩, hf.1, hf.2]

/-- `matchAxisNum` consumes exactly a rendered well-formed decimal. -/
theorem matchAxisNum_render {d : DecNum} (hwf : d.Wf) {tail : List Char}
    (htail : ∀ c, tail.head? = some c → c.isDigit = false ∧ c ≠ '.') :
    matchAxisNum (d.render ++ tail) = some (.dec d, tail) := by
  obtain ⟨neg, ip, fp⟩ := d
  obtain ⟨hip, hipd, hfpd⟩ := hwf
  simp only at hip hipd hfpd
  cases neg with
  | true =>
      have hL : (DecNum.mk true ip fp).render ++ tail =
          '-' :: (ip ++ ((if fp = [] then ([] : List Char) else '.' :: fp) ++ tail)) := by
        simp [DecNum.render]
      rw [hL, matchAxisNum_dash, matchNumCore_render true hip hipd hfpd htail]
  | false =>
      have hL : (DecNum.mk false ip fp).render ++ tail =
          ip ++ ((if fp = [] then ([] : List Char) else '.' :: fp) ++ tail) := by
        simp [DecNum.render]
      obtain ⟨c0, ip', rfl⟩ := List.exists_cons_of_ne_nil hip
      have hc0d : c0.isDigit = true := hipd c0 (by simp)
      rw [hL, matchAxisNum_nodash, matchNumCore_render false hip hipd hfpd htail]
      simp only [List.cons_append, List.head?_cons]
      exact fun h => absurd hc0d (by cases h; decide)

/-- `matchIntM` consumes exactly a rendered well-formed fraction-free
decimal, producing its `parseInt` value. -/
theorem matchIntM_render {neg : Bool} {ip tail : List Char} (hipne : ip ≠ [])
    (hipd : ∀ c ∈ ip, c.isDigit = true)
    (htail : ∀ c, tail.head? = some c → c.isDigit = false) :
    matchIntM ((DecNum.mk neg ip []).render ++ tail) =
      some ((if neg then -(charsNat ip : Int) else (charsNat ip : Int)), tail) := by
  have hsplit := takeWhile_exact hipd htail
  cases neg with
  | true =>
      have hL : (DecNum.mk true ip []).render ++ tail = '-' :: (ip ++ tail) := by
        simp [DecNum.render]
      rw [hL, matchIntM_dash]
      simp only [matchIntCore, hsplit.1, hsplit.2, if_neg hipne]
  | false =>
      have hL : (DecNum.mk false ip []).render ++ tail = ip ++ tail := by
        simp [DecNum.render]
      obtain ⟨c0, ip', rfl⟩ := List.exists_cons_of_ne_nil hipne
      have hc0d : c0.isDigit = true := hipd c0 (by simp)
      rw [hL, matchIntM_nodash]
      · simp only [matchIntCore, hsplit.1, hsplit.2, if_neg hipne]
      · simp only [List.cons_append, List.head?_cons]
        exact fun h => absurd hc0d (by cases h; decide)

/-- `matchIntM` rejects text that starts with neither a digit nor a dash. -/
theorem matchIntM_none {l : List Char} {c0 : Char} (hhd : l.head? = some c0)
    (h1 : c0 ≠ '-') (h2 : c0.isDigit = false) : matchIntM l = none := by
  cases l with
  | nil => simp at hhd
  | cons c rest =>
      have hc : c = c0 := by simpa using hhd
      subst hc
      have hnd : (c :: rest).head? ≠ some '-' := by simpa using h1
      rw [matchIntM_nodash hnd]
      have ht : (c :: rest).takeWhile Char.isDigit = [] := by
        rw [List.takeWhile_cons_of_neg (by simp [h2])]
      simp [matchIntCore, ht]

/-- `matchFlagM` accepts exactly `on`. -/
theorem matchFlagM_on (tail : List Char) : matchFlagM (['o', 'n'] ++ tail) = some (1, tail) := by
  simp [matchFlagM]

/-- `matchFlagM` accepts exactly `off`. -/
theorem matchFlagM_off (tail : List Char) :
    matchFlagM (['o', 'f', 'f'] ++ tail) = some (0, tail) := by
  simp [matchFlagM]

/-- `matchFlagM` rejects text that does not start with `o`. -/
theorem matchFlagM_none {l : List Char} {c0 : Char} (hhd : l.head? = some c0)
    (h1 : c0 ≠ 'o') : matchFlagM l = none := by
  cases l with
  | nil => simp at hhd
  | cons c rest =>
      have hc : c = c0 := by simpa using hhd
      subst hc
      simp [matchFlagM, h1]

/-! ## The matchers only consume input -/

theorem matchNumCore_le {neg : Bool} {l1 : List Char} {b : JSNum} {r : List Char}
    (h : matchNumCore neg l1 = some (b, r)) : r.length ≤ l1.length := by
  simp only [matchNumCore] at h
  split at h
  · exact absurd h (by simp)
  · split at h
    · injection h with h1
      injection h1 with h2 h3
      subst h3
      calc ((l1.dropWhile Char.isDigit).tail.dropWhile Char.isDigit).length
          ≤ (l1.dropWhile Char.isDigit).tail.length := length_dropWhile_le _ _
        _ ≤ (l1.dropWhile Char.isDigit).length := by
            rw [List.length_tail]; omega
        _ ≤ l1.length := length_dropWhile_le _ _
    · injection h with h1
      injection h1 with h2 h3
      subst h3
      exact length_dropWhile_le _ _

theorem tail_if_le (l : List Char) (c : Prop) [Decidable c] :
    (if c then l.tail else l).length ≤ l.length := by
  split
  · rw [List.length_tail]; omega
  · exact le_rfl

theorem Hvm_matchAxisNum : Hvm matchAxisNum := by
  intro l b r h
  unfold matchAxisNum at h
  exact le_trans (matchNumCore_le h) (tail_if_le l _)

/-- Whatever it is run on, the axis-number matcher only produces
well-formed plain-decimal values. -/
theorem matchAxisNum_shape {l : List Char} {b : JSNum} {r : List Char}
    (h : matchAxisNum l = some (b, r)) : ∃ d, b = JSNum.dec d ∧ d.Wf := by
  unfold matchAxisNum at h
  revert h
  generalize (if l.head? = some '-' then l.tail else l) = l1
  generalize (decide (l.head? = some '-')) = neg
  intro h
  simp only [matchNumCore] at h
  split at h
  · exact absurd h (by simp)
  · next hds =>
      split at h
      · injection h with h1
        injection h1 with h2 h3
        refine ⟨_, h2.symm, hds, ?_, ?_⟩
        · intro c hc
          exact List.mem_takeWhile_imp hc
        · intro c hc
          exact List.mem_takeWhile_imp hc
      · injection h with h1
        injection h1 with h2 h3
        refine ⟨_, h2.symm, hds, ?_, ?_⟩
        · intro c hc
          exact List.mem_takeWhile_imp hc
        · intro c hc
          simp at hc

theorem matchIntCore_le {neg : Bool} {l1 : List Char} {b : Int} {r : List Char}
    (h : matchIntCore neg l1 = some (b, r)) : r.length ≤ l1.length := by
  simp only [matchIntCore] at h
  split at h
  · exact absurd h (by simp)
  · injection h with h1
    injection h1 with h2 h3
    subst h3
    exact length_dropWhile_le _ _

theorem Hvm_matchIntM : Hvm matchIntM := by
  intro l b r h
  unfold matchIntM at h
  exact le_trans (matchIntCore_le h) (tail_if_le l _)

theorem Hvm_matchFlagM : Hvm matchFlagM := by
  intro l b r h
  simp only [matchFlagM] at h
  split at h
  · injection h with h1
    injection h1 with h2 h3
    subst h3
    simp [List.length_drop]
  · split at h
    · injection h with h1
      injection h1 with h2 h3
      subst h3
      simp [List.length_drop]
    · exact absurd h (by simp)

/-! ## ItemOk packages for the rendered entry shapes -/

theorem dec_render_ne_nil {d : DecNum} (h : d.ip ≠ []) : d.render ≠ [] := by
  obtain ⟨c0, ip', hip⟩ := List.exists_cons_of_ne_nil h
  simp [DecNum.render, hip]

theorem dec_render_head {d : DecNum} (hwf : d.Wf) :
    ∀ c, d.render.head? = some c → (c = '-' ∨ c.isDigit = true) := by
  obtain ⟨neg, ip, fp⟩ := d
  obtain ⟨hip, hipd, -⟩ := hwf
  simp only at hip hipd
  obtain ⟨c0, ip', rfl⟩ := List.exists_cons_of_ne_nil hip
  intro c hc
  cases neg with
  | true =>
      simp [DecNum.render] at hc
      exact Or.inl hc.symm
  | false =>
      simp [DecNum.render] at hc
      exact Or.inr (hc ▸ hipd c0 (by simp))

theorem dec_render_mem {d : DecNum} :
    ∀ c ∈ d.render, c = '-' ∨ c = '.' ∨ c ∈ d.ip ∨ c ∈ d.fp := by
  obtain ⟨neg, ip, fp⟩ := d
  intro c hc
  simp only [DecNum.render] at hc
  rcases List.mem_append.mp hc with h | h
  · rcases List.mem_append.mp h with h | h
    · left
      cases neg
      · simp at h
      · simp at h
        simp [h]
    · right; right; left; exact h
  · by_cases hfp : fp = []
    · rw [if_pos hfp] at h; simp at h
    · rw [if_neg hfp] at h
      rcases List.mem_cons.mp h with h | h
      · right; left; exact h
      · right; right; right; exact h

theorem dec_render_props {d : DecNum} (hwf : d.Wf) :
    d.render ≠ [] ∧ (∀ c, d.render.head? = some c → isWsC c = false) ∧
      (∀ c ∈ d.render, c ≠ '"') := by
  refine ⟨dec_render_ne_nil hwf.1, ?_, ?_⟩
  · intro c hc
    rcases dec_render_head hwf c hc with rfl | h
    · decide
    · exact isWsC_false_of_digit h
  · intro c hc
    rcases dec_render_mem c hc with rfl | rfl | h | h
    · decide
    · decide
    · exact ne_quote_of_digit (hwf.2.1 c h)
    · exact ne_quote_of_digit (hwf.2.2 c h)

theorem sepNil_head_axis {tail : List Char} (hsep : SepNil tail) :
    ∀ c, tail.head? = some c → c.isDigit = false ∧ c ≠ '.' := by
  rcases hsep with rfl | ⟨t', rfl⟩
  · intro c hc; simp at hc
  · intro c hc
    simp at hc
    subst hc
    exact ⟨by decide, by decide⟩

theorem itemOk_axis {k : String} {d : DecNum} (hk : ValidTag k) (hd : d.Wf) :
    ItemOk matchAxisNum ⟨k, (JSNum.dec d).render, some (JSNum.dec d)⟩ := by
  obtain ⟨hne, hws, hnq⟩ := dec_render_props hd
  refine ⟨hk, hne, hws, hnq, ?_⟩
  intro tail hsep
  exact matchAxisNum_render hd (sepNil_head_axis hsep)

theorem head_append_of_ne_nil {l tail : List Char} (h : l ≠ []) :
    (l ++ tail).head? = l.head? := by
  obtain ⟨c, l', rfl⟩ := List.exists_cons_of_ne_nil h
  simp

theorem itemOk_int_num {k : String} {d : DecNum} (hk : ValidTag k) (hd : d.Wf)
    (hfp : d.fp = []) :
    ItemOk matchIntM
      ⟨k, (JSNum.dec d).render,
        some (if d.neg then -(charsNat d.ip : Int) else (charsNat d.ip : Int))⟩ := by
  obtain ⟨hne, hws, hnq⟩ := dec_render_props hd
  refine ⟨hk, hne, hws, hnq, ?_⟩
  intro tail hsep
  obtain ⟨neg, ip, fp⟩ := d
  simp only at hfp
  subst hfp
  exact matchIntM_render hd.1 hd.2.1 (fun c hc => (sepNil_head_axis hsep c hc).1)

theorem itemOk_flag_num {k : String} {d : DecNum} (hk : ValidTag k) (hd : d.Wf) :
    ItemOk matchFlagM ⟨k, (JSNum.dec d).render, none⟩ := by
  obtain ⟨hne, hws, hnq⟩ := dec_render_props hd
  refine ⟨hk, hne, hws, hnq, ?_⟩
  intro tail hsep
  obtain ⟨c0, vc', hvc⟩ := List.exists_cons_of_ne_nil hne
  have hhd : ((JSNum.dec d).render ++ tail).head? = some c0 := by
    show (d.render ++ tail).head? = some c0
    rw [head_append_of_ne_nil hne]
    simp [hvc]
  refine matchFlagM_none hhd ?_
  have := dec_render_head hd c0 (by simp [JSNum.render, hvc])
  rcases this with rfl | h
  · decide
  · exact ne_of_digit h (by decide)

theorem flagChars_props (b : Bool) :
    flagChars b ≠ [] ∧ (∀ c, (flagChars b).head? = some c → isWsC c = false) ∧
      (∀ c ∈ flagChars b, c ≠ '"') := by
  cases b <;> exact ⟨by decide, by decide, by decide⟩

theorem itemOk_int_flag {k : String} {b : Bool} (hk : ValidTag k) :
    ItemOk matchIntM ⟨k, flagChars b, none⟩ := by
  obtain ⟨hne, hws, hnq⟩ := flagChars_props b
  refine ⟨hk, hne, hws, hnq, ?_⟩
  intro tail hsep
  have hhd : (flagChars b ++ tail).head? = some 'o' := by
    rw [head_append_of_ne_nil hne]
    cases b <;> rfl
  exact matchIntM_none hhd (by decide) (by decide)

theorem itemOk_flag_flag {k : String} {b : Bool} (hk : ValidTag k) :
    ItemOk matchFlagM ⟨k, flagChars b, some (if b then 1 else 0)⟩ := by
  obtain ⟨hne, hws, hnq⟩ := flagChars_props b
  refine ⟨hk, hne, hws, hnq, ?_⟩
  intro tail hsep
  cases b with
  | true => simpa [flagChars] using matchFlagM_on tail
  | false => simpa [flagChars] using matchFlagM_off tail

/-! ## Lemmas on the JavaScript-object association lists -/

theorem assocSet_of_notMem {α : Type} {m : List (String × α)} {k : String} {v : α}
    (h : k ∉ m.map Prod.fst) : assocSet m k v = m ++ [(k, v)] := by
  induction m with
  | nil => rfl
  | cons p rest ih =>
      simp only [List.map_cons, List.mem_cons] at h
      push_neg at h
      obtain ⟨p1, p2⟩ := p
      simp only [assocSet]
      rw [if_neg (fun hk => h.1 hk.symm), ih h.2]
      simp

theorem foldl_assocSet_disjoint {α : Type} :
    ∀ (l : List (String × α)) (acc : List (String × α)),
      (∀ k ∈ l.map Prod.fst, k ∉ acc.map Prod.fst) → (l.map Prod.fst).Nodup →
      l.foldl (fun m p => assocSet m p.1 p.2) acc = acc ++ l := by
  intro l
  induction l with
  | nil => intro acc _ _; simp
  | cons p rest ih =>
      intro acc hdisj hnd
      simp only [List.foldl_cons]
      rw [assocSet_of_notMem (hdisj p.1 (by simp))]
      have hnd' : p.1 ∉ rest.map Prod.fst ∧ (rest.map Prod.fst).Nodup := by
        rw [List.map_cons, List.nodup_cons] at hnd
        exact hnd
      rw [ih (acc ++ [(p.1, p.2)]) ?_ hnd'.2]
      · simp
      · intro k hk
        simp only [List.map_append, List.mem_append, List.map_cons, List.map_nil]
        push_neg
        refine ⟨hdisj k (by simp [hk]), ?_⟩
        have hne : k ≠ p.1 := fun hkp => hnd'.1 (hkp ▸ hk)
        simpa using hne

theorem buildObj_of_nodup {α : Type} {l : List (String × α)}
    (h : (l.map Prod.fst).Nodup) : buildObj l = l := by
  unfold buildObj
  rw [foldl_assocSet_disjoint l [] (by simp) h]
  simp

theorem assocGet_assocSet_self {α : Type} (m : List (String × α)) (k : String) (v : α) :
    assocGet (assocSet m k v) k = some v := by
  induction m with
  | nil => simp [assocSet, assocGet]
  | cons p rest ih =>
      obtain ⟨p1, p2⟩ := p
      by_cases hk : p1 = k
      · simp [assocSet, assocGet, hk]
      · simp only [assocSet, if_neg hk, assocGet]
        exact ih

theorem assocGet_assocSet_ne {α : Type} (m : List (String × α)) {k k' : String} (v : α)
    (h : k' ≠ k) : assocGet (assocSet m k v) k' = assocGet m k' := by
  have hne : ¬ (k = k') := fun hkk => h hkk.symm
  induction m with
  | nil =>
      simp only [assocSet, assocGet]
      rw [if_neg hne]
  | cons p rest ih =>
      obtain ⟨p1, p2⟩ := p
      by_cases hk : p1 = k
      · subst hk
        simp [assocSet, assocGet, hne]
      · have hset : assocSet ((p1, p2) :: rest) k v = (p1, p2) :: assocSet rest k v := by
          simp [assocSet, hk]
        rw [hset]
        by_cases hk' : p1 = k'
        · simp [assocGet, hk']
        · simp [assocGet, hk', ih]

theorem assocGet_append {α : Type} (l1 l2 : List (String × α)) (k : String) :
    assocGet (l1 ++ l2) k =
      (match assocGet l1 k with
       | some v => some v
       | none => assocGet l2 k) := by
  induction l1 with
  | nil => simp [assocGet]
  | cons p rest ih =>
      obtain ⟨p1, p2⟩ := p
      by_cases hk : p1 = k
      · simp [assocGet, hk]
      · simp only [List.cons_append, assocGet, if_neg hk]
        exact ih

theorem assocSet_map_fst {α : Type} (m : List (String × α)) (k : String) (v : α) :
    (assocSet m k v).map Prod.fst =
      (if k ∈ m.map Prod.fst then m.map Prod.fst else m.map Prod.fst ++ [k]) := by
  induction m with
  | nil => simp [assocSet]
  | cons p rest ih =>
      obtain ⟨p1, p2⟩ := p
      by_cases hk : p1 = k
      · subst hk
        simp [assocSet]
      · simp only [assocSet, if_neg hk, List.map_cons, ih]
        by_cases hmem : k ∈ rest.map Prod.fst
        · rw [if_pos hmem, if_pos (by simp [hmem])]
        · rw [if_neg hmem,
            if_neg (by
              simp only [List.map_cons, List.mem_cons]
              push_neg
              exact ⟨fun h => hk h.symm, hmem⟩)]
          simp

theorem buildObj_nodup {α : Type} (l : List (String × α)) :
    ((buildObj l).map Prod.fst).Nodup := by
  suffices h : ∀ (l acc : List (String × α)), (acc.map Prod.fst).Nodup →
      ((l.foldl (fun m p => assocSet m p.1 p.2) acc).map Prod.fst).Nodup by
    exact h l [] (by simp)
  intro l
  induction l with
  | nil => intro acc hacc; simpa using hacc
  | cons p rest ih =>
      intro acc hacc
      simp only [List.foldl_cons]
      refine ih _ ?_
      rw [assocSet_map_fst]
      split
      · exact hacc
      · next hnm =>
          refine List.nodup_append.mpr ⟨hacc, List.nodup_singleton _, ?_⟩
          intro a ha hb
          rw [List.mem_singleton] at hb
          subst hb
          exact hnm ha

theorem mem_assocSet {α : Type} {m : List (String × α)} {k : String} {v : α} {p : String × α}
    (h : p ∈ assocSet m k v) : p ∈ m ∨ p = (k, v) := by
  induction m with
  | nil =>
      right
      simpa [assocSet] using h
  | cons q rest ih =>
      obtain ⟨q1, q2⟩ := q
      by_cases hk : q1 = k
      · subst hk
        simp only [assocSet, if_pos rfl] at h
        rcases List.mem_cons.mp h with rfl | h
        · right; rfl
        · left; exact List.mem_cons_of_mem _ h
      · simp only [assocSet, if_neg hk] at h
        rcases List.mem_cons.mp h with rfl | h
        · left; exact List.mem_cons_self _ _
        · rcases ih h with h | h
          · left; exact List.mem_cons_of_mem _ h
          · right; exact h

theorem mem_buildObj {α : Type} {l : List (String × α)} {p : String × α}
    (h : p ∈ buildObj l) : p ∈ l := by
  suffices hgen : ∀ (l acc : List (String × α)) (p : String × α),
      p ∈ l.foldl (fun m q => assocSet m q.1 q.2) acc → p ∈ acc ∨ p ∈ l by
    rcases hgen l [] p h with h | h
    · simp at h
    · exact h
  intro l
  induction l with
  | nil => intro acc p hp; simpa using hp
  | cons q rest ih =>
      intro acc p hp
      simp only [List.foldl_cons] at hp
      rcases ih _ p hp with hmem | hmem
      · rcases mem_assocSet hmem with hmem | hmem
        · exact Or.inl hmem
        · right; simp [hmem]
      · right; simp [hmem]

/-! ## Round-trip of axis strings: `parseAxis ∘ axisToString` -/

theorem axisToString_data (axes : List (String × Option JSNum)) :
    (axisToString axes).data =
      renderItems ((nonNull axes).map fun e =>
        (⟨e.1, e.2.render, some e.2⟩ : ScanItem JSNum)) := by
  show joinCS _ = joinCS _
  congr 1
  unfold nonNull
  rw [List.map_filterMap, List.map_filterMap]
  congr 1
  funext p
  cases p.2 <;> simp [itemChars, axisEntryChars]

theorem parseAxis_axisToString (axes : List (String × Option JSNum))
    (hk : ∀ e ∈ nonNull axes, ValidTag e.1)
    (hv : ∀ e ∈ nonNull axes, ∃ d, e.2 = JSNum.dec d ∧ d.Wf)
    (hnd : ((nonNull axes).map Prod.fst).Nodup) :
    parseAxis (axisToString axes) = nonNull axes := by
  unfold parseAxis
  rw [axisToString_data axes]
  rw [scanG_renderItems Hvm_matchAxisNum _ ?hok]
  case hok =>
    intro i hi
    rw [List.mem_map] at hi
    obtain ⟨e, he, rfl⟩ := hi
    obtain ⟨d, hd, hwf⟩ := hv e he
    rw [hd]
    exact itemOk_axis (hk e he) hwf
  rw [List.filterMap_map]
  have hfm : (nonNull axes).filterMap
      ((fun i => i.res.map ((i.tag, ·))) ∘ fun e =>
        (⟨e.1, e.2.render, some e.2⟩ : ScanItem JSNum)) = nonNull axes := by
    have : ∀ e : String × JSNum,
        ((fun i => i.res.map ((i.tag, ·))) ∘ fun e =>
          (⟨e.1, e.2.render, some e.2⟩ : ScanItem JSNum)) e = some e := by
      intro e; rfl
    rw [List.filterMap_congr (fun e _ => this e)]
    exact List.filterMap_some _
  rw [hfm]
  exact buildObj_of_nodup hnd

/-- Every entry produced by the axis scanner has a valid tag and a
well-formed plain-decimal value. -/
theorem parseAxis_entries (s : String) :
    ∀ e ∈ parseAxis s, ValidTag e.1 ∧ ∃ d, e.2 = JSNum.dec d ∧ d.Wf := by
  intro e he
  have he' : e ∈ scanG matchAxisNum s.data := mem_buildObj he
  -- every scanner output entry comes from a successful tryEntryG
  suffices hgen : ∀ (fuel : Nat) (l : List Char) (e : String × JSNum),
      e ∈ scanGAux matchAxisNum fuel l → ValidTag e.1 ∧ ∃ d, e.2 = JSNum.dec d ∧ d.Wf from
    hgen _ _ e he'
  intro fuel
  induction fuel with
  | zero => intro l e he; cases l <;> simp [scanGAux] at he
  | succ fuel ih =>
      intro l e he
      cases l with
      | nil => simp [scanGAux] at he
      | cons c rest =>
          simp only [scanGAux] at he
          by_cases hc : c = '"'
          · rw [if_pos hc] at he
            cases heq : tryEntryG matchAxisNum rest with
            | none => rw [heq] at he; exact ih rest e he
            | some er =>
                obtain ⟨e', r⟩ := er
                rw [heq] at he
                rcases List.mem_cons.mp he with rfl | he2
                · -- extract facts from the successful match
                  simp only [tryEntryG] at heq
                  split at heq
                  · next hlen =>
                      split at heq
                      · next l1 l2 hd =>
                          split at heq
                          · exact absurd heq (by simp)
                          · split at heq
                            · next x b l4 hvm =>
                                injection heq with h1
                                injection h1 with h2 h3
                                subst h2
                                constructor
                                · refine ⟨?_, ?_⟩
                                  · simpa using hlen
                                  · intro ch hch
                                    simpa using List.mem_takeWhile_imp hch
                                · -- the matcher only produces well-formed decimals
                                  have := matchAxisNum_shape hvm
                                  simpa using this
                            · exact absurd heq (by simp)
                      · exact absurd heq (by simp)
                  · exact absurd heq (by simp)
                · exact ih r e he2
          · rw [if_neg hc] at he
            exact ih rest e he

/-! ## Round-trip of feature strings: `parseFeatures ∘ featuresToString` -/

theorem featuresToString_data (fs : List (String × Option FVal)) (res : FVal → Option Int) :
    (featuresToString fs).data =
      renderItems ((nonNull fs).map fun e =>
        (⟨e.1, featValChars e.2, res e.2⟩ : ScanItem Int)) := by
  show joinCS _ = joinCS _
  congr 1
  unfold nonNull
  rw [List.map_filterMap, List.map_filterMap]
  congr 1
  funext p
  cases p.2 <;> simp [itemChars, featEntryChars]

theorem itemOk_int_of_good {k : String} {v : FVal} (hk : ValidTag k) (hv : GoodFVal v) :
    ItemOk matchIntM ⟨k, featValChars v, intRes v⟩ := by
  rcases hv with ⟨d, rfl, hwf, hfp⟩ | ⟨b, rfl⟩
  · exact itemOk_int_num hk hwf hfp
  · exact itemOk_int_flag hk

theorem itemOk_flag_of_good {k : String} {v : FVal} (hk : ValidTag k) (hv : GoodFVal v) :
    ItemOk matchFlagM ⟨k, featValChars v, flagRes v⟩ := by
  rcases hv with ⟨d, rfl, hwf, hfp⟩ | ⟨b, rfl⟩
  · exact itemOk_flag_num hk hwf
  · exact itemOk_flag_flag hk

theorem assocGet_eq_none {α : Type} {l : List (String × α)} {k : String}
    (h : k ∉ l.map Prod.fst) : assocGet l k = none := by
  induction l with
  | nil => rfl
  | cons p rest ih =>
      simp only [List.map_cons, List.mem_cons] at h
      push_neg at h
      obtain ⟨p1, p2⟩ := p
      simp only [assocGet]
      rw [if_neg (fun hp => h.1 hp.symm)]
      exact ih h.2

theorem keys_resMap_mem {es : List (String × FVal)} {res : FVal → Option Int} {k : String}
    (h : k ∈ (es.filterMap fun e => (res e.2).map ((e.1, ·))).map Prod.fst) :
    k ∈ es.map Prod.fst := by
  rw [List.mem_map] at h
  obtain ⟨p, hp, rfl⟩ := h
  rw [List.mem_filterMap] at hp
  obtain ⟨e, he, hres⟩ := hp
  cases hr : res e.2 with
  | none => rw [hr] at hres; simp at hres
  | some n =>
      rw [hr] at hres
      simp only [Option.map_some'] at hres
      rw [List.mem_map]
      injection hres with hres'
      exact ⟨e, he, by rw [← hres']⟩

/-- The two regex passes of `parseFeatures`, taken together over a good
feature list, form an object with distinct keys whose lookups agree with
the claim-side integer map. -/
theorem two_pass_object (es : List (String × FVal))
    (hnd : (es.map Prod.fst).Nodup) (hv : ∀ e ∈ es, GoodFVal e.2) :
    (((es.filterMap fun e => (intRes e.2).map ((e.1, ·))) ++
        (es.filterMap fun e => (flagRes e.2).map ((e.1, ·)))).map Prod.fst).Nodup ∧
      ∀ k, assocGet ((es.filterMap fun e => (intRes e.2).map ((e.1, ·))) ++
            (es.filterMap fun e => (flagRes e.2).map ((e.1, ·)))) k =
          assocGet (es.map fun e => (e.1, fvalInt e.2)) k := by
  induction es with
  | nil => exact ⟨by simp, fun k => by rfl⟩
  | cons e rest ih =>
      rw [List.map_cons, List.nodup_cons] at hnd
      obtain ⟨hfresh, hndr⟩ := hnd
      obtain ⟨ihnd, ihget⟩ := ih hndr (fun e' he' => hv e' (List.mem_cons_of_mem _ he'))
      have hAkeys : ∀ k, k ∈ (rest.filterMap fun e => (intRes e.2).map ((e.1, ·))).map Prod.fst →
          k ∈ rest.map Prod.fst := fun k => keys_resMap_mem
      have hBkeys : ∀ k, k ∈ (rest.filterMap fun e => (flagRes e.2).map ((e.1, ·))).map Prod.fst →
          k ∈ rest.map Prod.fst := fun k => keys_resMap_mem
      rcases hv e (by simp) with ⟨d, hval, hwf, hfp⟩ | ⟨b, hval⟩
      · -- numeric entry: it goes into the first pass
        have hint : intRes e.2 =
            some (if d.neg then -(charsNat d.ip : Int) else (charsNat d.ip : Int)) := by
          rw [hval]; rfl
        have hflag : flagRes e.2 = none := by rw [hval]; rfl
        have hfv : fvalInt e.2 = (if d.neg then -(charsNat d.ip : Int) else (charsNat d.ip : Int)) := by
          rw [hval]; rfl
        simp only [List.filterMap_cons, hint, hflag, Option.map_some', Option.map_none',
          List.map_cons, List.cons_append]
        constructor
        · rw [List.nodup_cons]
          refine ⟨?_, ihnd⟩
          rw [List.map_append, List.mem_append]
          rintro (h | h)
          · exact hfresh (hAkeys _ h)
          · exact hfresh (hBkeys _ h)
        · intro k
          by_cases hke : e.1 = k
          · subst hke
            simp [assocGet, hfv]
          · simp only [assocGet, if_neg hke]
            exact ihget k
      · -- boolean-ish entry: it goes into the second pass
        have hint : intRes e.2 = none := by rw [hval]; rfl
        have hflag : flagRes e.2 = some (if b then 1 else 0) := by rw [hval]; rfl
        have hfv : fvalInt e.2 = (if b then 1 else 0) := by rw [hval]; rfl
        simp only [List.filterMap_cons, hint, hflag, Option.map_some', Option.map_none',
          List.map_cons]
        constructor
        · rw [List.map_append] at ihnd ⊢
          rw [List.map_cons]
          rw [List.nodup_append] at ihnd
          obtain ⟨hA, hB, hAB⟩ := ihnd
          rw [List.nodup_append]
          refine ⟨hA, ?_, ?_⟩
          · rw [List.nodup_cons]
            exact ⟨fun h => hfresh (hBkeys _ h), hB⟩
          · intro a ha hb
            rcases List.mem_cons.mp hb with rfl | hb
            · exact hfresh (hAkeys _ ha)
            · exact hAB ha hb
        · intro k
          rw [assocGet_append]
          by_cases hke : e.1 = k
          · subst hke
            rw [assocGet_eq_none (fun h => hfresh (hAkeys _ h))]
            simp [assocGet, hfv]
          · have hbr : assocGet ((e.1, if b then 1 else 0) ::
                (rest.filterMap fun e => (flagRes e.2).map ((e.1, ·)))) k =
                assocGet (rest.filterMap fun e => (flagRes e.2).map ((e.1, ·))) k := by
              simp only [assocGet, if_neg hke]
            rw [hbr, ← assocGet_append, ihget k]
            simp only [assocGet, if_neg hke]

/-- The full `parseFeatures ∘ featuresToString` round trip on the good
fragment: per-key lookup of the resulting object agrees with the
claim-side integer map. -/
theorem parseFeatures_featuresToString (fs : List (String × Option FVal))
    (hk : ∀ e ∈ nonNull fs, ValidTag e.1)
    (hv : ∀ e ∈ nonNull fs, GoodFVal e.2)
    (hnd : ((nonNull fs).map Prod.fst).Nodup) :
    ∀ k, assocGet (parseFeatures (featuresToString fs)) k =
      assocGet ((nonNull fs).map fun e => (e.1, fvalInt e.2)) k := by
  have hint : scanG matchIntM (featuresToString fs).data =
      (nonNull fs).filterMap fun e => (intRes e.2).map ((e.1, ·)) := by
    rw [featuresToString_data fs intRes, scanG_renderItems Hvm_matchIntM _ ?hoki]
    case hoki =>
      intro i hi
      rw [List.mem_map] at hi
      obtain ⟨e, he, rfl⟩ := hi
      exact itemOk_int_of_good (hk e he) (hv e he)
    rw [List.filterMap_map]
    exact List.filterMap_congr (fun e _ => rfl)
  have hflag : scanG matchFlagM (featuresToString fs).data =
      (nonNull fs).filterMap fun e => (flagRes e.2).map ((e.1, ·)) := by
    rw [featuresToString_data fs flagRes, scanG_renderItems Hvm_matchFlagM _ ?hokf]
    case hokf =>
      intro i hi
      rw [List.mem_map] at hi
      obtain ⟨e, he, rfl⟩ := hi
      exact itemOk_flag_of_good (hk e he) (hv e he)
    rw [List.filterMap_map]
    exact List.filterMap_congr (fun e _ => rfl)
  obtain ⟨hnd2, hget⟩ := two_pass_object (nonNull fs) hnd hv
  intro k
  unfold parseFeatures
  rw [hint, hflag, buildObj_of_nodup hnd2]
  exact hget k

theorem firstOccs_filter (p : String → Bool) :
    ∀ ts : List String, firstOccs (ts.filter p) = (firstOccs ts).filter p := by
  intro ts
  induction ts with
  | nil => rfl
  | cons t ts ih =>
      by_cases hp : p t = true
      · rw [List.filter_cons_of_pos hp]
        show t :: (firstOccs (ts.filter p)).filter (fun x => x ≠ t) = _
        rw [ih]
        have hr : List.filter p (firstOccs (t :: ts)) =
            t :: List.filter p ((firstOccs ts).filter fun x => x ≠ t) := by
          show List.filter p (t :: (firstOccs ts).filter fun x => x ≠ t) = _
          rw [List.filter_cons_of_pos hp]
        rw [hr, List.filter_filter, List.filter_filter]
        congr 1
        apply List.filter_congr
        intro x _
        exact Bool.and_comm _ _
      · rw [List.filter_cons_of_neg hp]
        rw [ih]
        show _ = List.filter p (t :: (firstOccs ts).filter (fun x => x ≠ t))
        rw [List.filter_cons_of_neg hp, List.filter_filter]
        apply List.filter_congr
        intro x _
        by_cases hx : x = t
        · subst hx
          simp [hp]
        · simp [hx]

theorem firstOccs_cons_filter (t : String) (ts : List String) :
    firstOccs (t :: ts) = t :: firstOccs (ts.filter fun x => x ≠ t) := by
  show t :: (firstOccs ts).filter (fun x => x ≠ t) = _
  rw [firstOccs_filter]

theorem mem_firstOccs (x : String) : ∀ ts : List String, x ∈ firstOccs ts ↔ x ∈ ts := by
  intro ts
  induction ts with
  | nil => simp [firstOccs]
  | cons t ts ih =>
      show x ∈ t :: (firstOccs ts).filter (fun y => y ≠ t) ↔ _
      rw [List.mem_cons, List.mem_filter, ih, List.mem_cons]
      by_cases hx : x = t
      · subst hx; simp
      · simp [hx]

theorem firstOccs_nodup : ∀ ts : List String, (firstOccs ts).Nodup := by
  intro ts
  induction ts with
  | nil => exact List.nodup_nil
  | cons t ts ih =>
      show (t :: (firstOccs ts).filter (fun y => y ≠ t)).Nodup
      rw [List.nodup_cons]
      refine ⟨?_, ih.filter _⟩
      intro hmem
      rw [List.mem_filter] at hmem
      simpa using hmem.2

/-- The fold of `inject` over any starting state appends exactly the first
occurrences of the not-yet-injected texts. -/
theorem foldl_inject (ts : List String) :
    ∀ st : Injector, (ts.foldl inject st).appended =
      st.appended ++ firstOccs (ts.filter fun t => decide (t ∉ st.rules)) := by
  induction ts with
  | nil => intro st; simp [firstOccs]
  | cons t ts ih =>
      intro st
      rw [List.foldl_cons]
      by_cases hmem : t ∈ st.rules
      · have hinj : inject st t = ensureNode st := by
          simp [inject, ensureNode, hmem]
        rw [hinj]
        rw [ih (ensureNode st)]
        rw [List.filter_cons_of_neg (by simp [hmem])]
        rfl
      · have hinj : inject st t =
            { created := true, appended := st.appended ++ [t], rules := st.rules ++ [t] } := by
          simp [inject, ensureNode, hmem]
        rw [hinj, ih]
        have hstep : List.filter (fun x => decide (x ∉ st.rules)) (t :: ts) =
            t :: List.filter (fun x => decide (x ∉ st.rules)) ts :=
          List.filter_cons_of_pos (by simpa using hmem)
        rw [hstep, firstOccs_cons_filter, List.filter_filter]
        have hf : ∀ x : String,
            (decide (x ≠ t) && decide (x ∉ st.rules)) = decide (x ∉ st.rules ++ [t]) := by
          intro x
          by_cases h1 : x ∈ st.rules <;> by_cases h2 : x = t <;>
            simp [h1, h2, List.mem_append]
        rw [List.filter_congr (fun x _ => hf x)]
        simp

/-- C7: `StyleInjector.inject` is idempotent on rule text.  Over any call
sequence, the appended text nodes are exactly the distinct rule texts in
first-injection order: each distinct text appears exactly once
(`Nodup`), a repeated text appends nothing, and every injected text is
present. -/
theorem c7_inject_dedup (ts : List String) :
    (injectAll ts).appended = firstOccs ts ∧ (firstOccs ts).Nodup ∧
      ∀ t, t ∈ firstOccs ts ↔ t ∈ ts := by
  refine ⟨?_, firstOccs_nodup ts, fun t => mem_firstOccs t ts⟩
  unfold injectAll
  rw [foldl_inject ts {}]
  show firstOccs (ts.filter fun t => decide (t ∉ ([] : List String))) = _
  rw [List.filter_eq_self.mpr (by intro a _; simp)]

/-- C3: a descriptor that is missing a name, or whose source list is
absent or empty, makes `loadFont` fail with the validation error before
any load attempt: the state (and so the registry) is unchanged, the
action trace is empty (no loader call, no registry write, no events),
and the result is the thrown error, surfaced as a rejected operation. -/
theorem c3_loadFont_validation (st : MgrState) (desc : Option FontDescIn)
    (lr : LoadStatus) (wok : Bool)
    (h : desc = none ∨ ∃ d, desc = some d ∧
      (d.name = none ∨ d.name = some "" ∨ d.src = none ∨ d.src = some [])) :
    loadFont st desc lr wok = (st, [], .error "Invalid font descriptor: missing name/src") := by
  rcases h with rfl | ⟨d, rfl, hcase⟩
  · rfl
  · rcases hcase with h | h | h | h
    · simp [loadFont, h]
    · simp [loadFont, h]
    · cases hn : d.name with
      | none => simp [loadFont, hn]
      | some n =>
          by_cases hne : n = ""
          · simp [loadFont, hn, hne]
          · simp [loadFont, hn, hne, h]
    · cases hn : d.name with
      | none => simp [loadFont, hn]
      | some n =>
          by_cases hne : n = ""
          · simp [loadFont, hn, hne]
          · simp [loadFont, hn, hne, h]

theorem c3_loadFont_validation_witness :
    loadFont {} (some {name := some "X", src := some []}) .loaded true =
      ({}, [], .error "Invalid font descriptor: missing name/src") :=
  c3_loadFont_validation {} _ .loaded true
    (Or.inr ⟨_, rfl, Or.inr (Or.inr (Or.inr rfl))⟩)

/-- C8: within every `loadFont` call that passes validation, the action
trace is exactly loader call, registry write, `load` event, readiness
probe, `ready` event — and wherever the `load` and `ready` events sit in
that trace, `load` is strictly earlier: no execution emits `ready`
before `load`. -/
theorem c8_load_before_ready (st : MgrState) (d : FontDescIn) (n : String)
    (srcs : List SrcEntry) (lr : LoadStatus) (wok : Bool)
    (hn : d.name = some n) (hne : n ≠ "") (hs : d.src = some srcs) (hsne : srcs ≠ []) :
    (loadFont st (some d) lr wok).2.1 =
      [.attempt n, .regSet n, .evLoad n lr, .waitProbe n, .evReady n wok] ∧
      ∀ i j : Nat,
        (loadFont st (some d) lr wok).2.1.get? i = some (.evLoad n lr) →
        (loadFont st (some d) lr wok).2.1.get? j = some (.evReady n wok) → i < j := by
  have htrace : (loadFont st (some d) lr wok).2.1 =
      [.attempt n, .regSet n, .evLoad n lr, .waitProbe n, .evReady n wok] := by
    simp [loadFont, hn, hne, hs, hsne]
  refine ⟨htrace, ?_⟩
  intro i j hi hj
  rw [htrace] at hi hj
  have hi2 : i = 2 := by
    rcases i with _ | _ | _ | _ | _ | i <;> simp [List.get?] at hi
    rfl
  have hj4 : j = 4 := by
    rcases j with _ | _ | _ | _ | _ | j <;> simp [List.get?] at hj
    rfl
  omega

theorem c8_load_before_ready_witness :
    (loadFont {} (some {name := some "X", src := some [{url := "/fonts/X.woff2"}]})
        .loaded true).2.1 =
      [.attempt "X", .regSet "X", .evLoad "X" .loaded, .waitProbe "X", .evReady "X" true] :=
  (c8_load_before_ready {} _ "X" _ .loaded true rfl (by decide) rfl (by decide)).1

theorem endsWith_pct_not_px {t : String} (h : endsWithS t "%" = true) :
    endsWithS t "px" = false := by
  unfold endsWithS at *
  rw [List.isSuffixOf_iff_suffix] at h
  by_contra hpx
  rw [Bool.not_eq_false, List.isSuffixOf_iff_suffix] at hpx
  obtain ⟨p1, hp1⟩ := h
  obtain ⟨p2, hp2⟩ := hpx
  have h1 : t.data.getLast? = some '%' := by
    rw [← hp1]
    exact List.getLast?_concat p1
  have h2 : t.data.getLast? = some 'x' := by
    rw [← hp2]
    show (p2 ++ ['p', 'x']).getLast? = some 'x'
    rw [show p2 ++ ['p', 'x'] = (p2 ++ ['p']) ++ ['x'] by simp]
    exact List.getLast?_concat _
  rw [h1] at h2
  exact absurd h2 (by decide)

/-- C4: `estimateLineHeight` with a numeric (truthy) size `s` returns
`s × 1.25` when no line-height is given; `s × l` for a numeric
line-height `l`; `parseFloat` of the string for a line-height ending in
`px`; `s × (parseFloat/100)` for one ending in `%`; and
`s × parseFloat` otherwise (`NaN` results are `none`). -/
theorem c4_estimateLineHeight (style : MStyle) (s : ℚ)
    (hsize : style.size = some (.num s)) (hs : s ≠ 0) :
    (style.lineHeight = none → estimateLineHeight style = some (s * (5 / 4))) ∧
      (∀ l : ℚ, style.lineHeight = some (.num l) →
        estimateLineHeight style = some (s * l)) ∧
      (∀ t : String, style.lineHeight = some (.str t) → endsWithS t "px" = true →
        estimateLineHeight style = parseFloatS t) ∧
      (∀ t : String, style.lineHeight = some (.str t) → endsWithS t "%" = true →
        estimateLineHeight style = (parseFloatS t).map fun x => s * (x / 100)) ∧
      (∀ t : String, style.lineHeight = some (.str t) → endsWithS t "px" = false →
        endsWithS t "%" = false →
        estimateLineHeight style = (parseFloatS t).map fun x => s * x) := by
  have hsz : toUnitless (jsOrLHV style.size (.num 16)) = some s := by
    rw [hsize]
    simp [jsOrLHV, LHV.truthy, hs, toUnitless]
  refine ⟨?_, ?_, ?_, ?_, ?_⟩
  · intro hlh
    simp [estimateLineHeight, hlh, hsz, omul]
  · intro l hlh
    simp [estimateLineHeight, hlh, hsz, omul]
  · intro t hlh hpx
    simp [estimateLineHeight, hlh, hsz, hpx]
  · intro t hlh hpct
    have hpx := endsWith_pct_not_px hpct
    simp only [estimateLineHeight, hlh, hsz, hpx, hpct, Bool.false_eq_true, if_false, if_true,
      if_pos rfl]
    cases parseFloatS t <;> simp [omul]
  · intro t hlh hpx hpct
    simp only [estimateLineHeight, hlh, hsz, hpx, hpct, Bool.false_eq_true, if_false]
    cases parseFloatS t <;> simp [omul]

section RatKernelEval

attribute [local semireducible] Rat.mul Rat.add Rat.inv Rat.sub Nat.gcd

theorem c4_estimateLineHeight_witness :
    estimateLineHeight { size := some (.num 16) } = some 20 ∧
      estimateLineHeight { size := some (.num 16), lineHeight := some (.str "150%") } =
        some 24 := by
  constructor
  · exact ((c4_estimateLineHeight { size := some (.num 16) } 16 rfl
      (by norm_num)).1 rfl).trans (by norm_num)
  · exact ((c4_estimateLineHeight { size := some (.num 16), lineHeight := some (.str "150%") }
      16 rfl (by norm_num)).2.2.2.1 "150%" rfl (by decide)).trans (by decide)

end RatKernelEval

/-- C10: a registered font whose descriptor has no weight, or whose
weight is a string that does not match the `\d+\s+\d+` pattern, passes
`supportsWeightRange` for every requested range, so `select` with a
`weightRange` criterion never excludes it on weight grounds: its
membership in the selection is decided by the language, variable and
preference filters alone. -/
theorem c10_weightRange_permissive (f : NFont) (mn mx : ℚ) (st : MgrState) (c : SelCrit)
    (hw : f.weight = none ∨ ∃ s, f.weight = some (.wstr s) ∧ testVarPat s.data = false) :
    supportsWeightRange f mn mx = true ∧
      (f ∈ select st c ↔ f ∈ regAll st ∧
        hasLangB f (c.languages.getD [st.defaultLanguage]) = true ∧
        hasVarB (c.variableOpt.getD true) f = true ∧
        preferredB c.prefer f = true) := by
  have hsw : ∀ a b : ℚ, supportsWeightRange f a b = true := by
    intro a b
    rcases hw with h | ⟨sw, h, hsv⟩
    · simp [supportsWeightRange, h]
    · simp [supportsWeightRange, h, hsv]
  refine ⟨hsw mn mx, ?_⟩
  unfold select
  rw [List.Perm.mem_iff (List.perm_insertionSort _ _), List.mem_filter]
  simp only [Bool.and_eq_true]
  constructor
  · rintro ⟨h1, ⟨⟨h2, h3⟩, -⟩, h4⟩
    exact ⟨h1, h2, h3, h4⟩
  · rintro ⟨h1, h2, h3, h4⟩
    refine ⟨h1, ⟨⟨h2, h3⟩, ?_⟩, h4⟩
    cases hwr : c.weightRange with
    | none => rfl
    | some r =>
        obtain ⟨a, b⟩ := r
        simp [weightOkB, hsw]

theorem c10_weightRange_permissive_witness :
    supportsWeightRange { name := "NoWeight" } 400 700 = true ∧
      (({ name := "NoWeight" } : NFont) ∈
          select { registry := [("NoWeight", { name := "NoWeight" })] }
            { variableOpt := some false, weightRange := some (400, 700) } ↔
        ({ name := "NoWeight" } : NFont) ∈
            regAll { registry := [("NoWeight", { name := "NoWeight" })] } ∧
          hasLangB { name := "NoWeight" } ["en"] = true ∧
          hasVarB false { name := "NoWeight" } = true ∧
          preferredB none { name := "NoWeight" } = true) :=
  c10_weightRange_permissive { name := "NoWeight" } 400 700
    { registry := [("NoWeight", { name := "NoWeight" })] }
    { variableOpt := some false, weightRange := some (400, 700) } (Or.inl rfl)

theorem lcmpChars_nil_le (cs : List Char) : lcmpChars [] cs ≤ 0 := by
  cases cs <;> simp [lcmpChars]

theorem lcmpChars_trans : ∀ as bs cs : List Char,
    lcmpChars as bs ≤ 0 → lcmpChars bs cs ≤ 0 → lcmpChars as cs ≤ 0 := by
  intro as
  induction as with
  | nil => intro bs cs _ _; exact lcmpChars_nil_le cs
  | cons a as ih =>
      intro bs cs h1 h2
      cases bs with
      | nil => simp [lcmpChars] at h1
      | cons b bs =>
          cases cs with
          | nil => simp [lcmpChars] at h2
          | cons c cs =>
              simp only [lcmpChars] at h1 h2 ⊢
              split_ifs at h1 h2 ⊢ <;> try omega
              exact ih bs cs h1 h2

theorem lcmpChars_swap : ∀ as bs : List Char, lcmpChars bs as = -lcmpChars as bs := by
  intro as
  induction as with
  | nil => intro bs; cases bs <;> simp [lcmpChars]
  | cons a as ih =>
      intro bs
      cases bs with
      | nil => simp [lcmpChars]
      | cons b bs =>
          simp only [lcmpChars]
          split_ifs <;> try omega
          exact ih bs

theorem localeCmp_trans {a b c : String} (h1 : localeCmp a b ≤ 0) (h2 : localeCmp b c ≤ 0) :
    localeCmp a c ≤ 0 :=
  lcmpChars_trans a.data b.data c.data h1 h2

theorem localeCmp_swap (a b : String) : localeCmp b a = -localeCmp a b :=
  lcmpChars_swap a.data b.data

/-- The ranking comparator is the three-key descending lexicographic
comparison of variable-weight support, language score and preference
score, tie-broken by name comparison. -/
theorem selCmp_eq_lexCmp3 (langs : List String) (pref : Option String) (a b : NFont) :
    selCmp langs pref a b =
      lexCmp3 (if supportsVariableWeight a then 1 else 0)
        (scoreLang a.languages langs) (prefScore pref a)
        (if supportsVariableWeight b then 1 else 0)
        (scoreLang b.languages langs) (prefScore pref b)
        (localeCmp a.name b.name) := by
  cases pref with
  | none =>
      simp only [selCmp, lexCmp3, prefScore]
      split_ifs <;> first | rfl | omega
  | some p =>
      by_cases hp : p = ""
      · subst hp
        simp only [selCmp, lexCmp3, prefScore]
        split_ifs <;> first | rfl | omega
      · simp only [selCmp, lexCmp3, prefScore, if_pos hp, ne_eq, hp, not_false_eq_true,
          if_true]

theorem lexCmp3_trans {x1 x2 x3 y1 y2 y3 z1 z2 z3 lxy lyz lxz : Int}
    (hL : lxy ≤ 0 → lyz ≤ 0 → lxz ≤ 0)
    (h1 : lexCmp3 x1 x2 x3 y1 y2 y3 lxy ≤ 0) (h2 : lexCmp3 y1 y2 y3 z1 z2 z3 lyz ≤ 0) :
    lexCmp3 x1 x2 x3 z1 z2 z3 lxz ≤ 0 := by
  unfold lexCmp3 at h1 h2 ⊢
  split_ifs at h1 h2 ⊢ <;> omega

theorem lexCmp3_total (x1 x2 x3 y1 y2 y3 lxy lyx : Int) (hL : lyx = -lxy) :
    lexCmp3 x1 x2 x3 y1 y2 y3 lxy ≤ 0 ∨ lexCmp3 y1 y2 y3 x1 x2 x3 lyx ≤ 0 := by
  unfold lexCmp3
  split_ifs <;> omega

theorem selRel_total (langs : List String) (pref : Option String) (a b : NFont) :
    selRel langs pref a b ∨ selRel langs pref b a := by
  unfold selRel
  rw [selCmp_eq_lexCmp3, selCmp_eq_lexCmp3]
  exact lexCmp3_total _ _ _ _ _ _ _ _ (localeCmp_swap a.name b.name)

theorem selRel_trans (langs : List String) (pref : Option String) (a b c : NFont)
    (h1 : selRel langs pref a b) (h2 : selRel langs pref b c) : selRel langs pref a c := by
  unfold selRel at h1 h2 ⊢
  rw [selCmp_eq_lexCmp3] at h1 h2 ⊢
  exact lexCmp3_trans localeCmp_trans h1 h2

/-- C6: `select` keeps exactly the registered fonts passing the
language filter (no declared languages matches anything), the
variable-weight filter when `variable` is requested, the weight-range
containment filter and the case-insensitive name-substring preference
filter; the output is ranked by the comparator — variable-weight support
descending, then language score descending, then preference match
descending, then name ascending — and, on the claim's example registry
of a `"100 900"` variable font and a fixed-weight-400 font, `select`
with `variable: true` returns only the variable font (whose declared
range also passes the `[400, 700]` containment check). -/
theorem c6_select_semantics (st : MgrState) (c : SelCrit) :
    (∀ f, f ∈ select st c ↔ f ∈ regAll st ∧
        hasLangB f (c.languages.getD [st.defaultLanguage]) = true ∧
        hasVarB (c.variableOpt.getD true) f = true ∧
        weightOkB c.weightRange f = true ∧
        preferredB c.prefer f = true) ∧
      List.Sorted (selRel (c.languages.getD [st.defaultLanguage]) c.prefer) (select st c) ∧
      supportsWeightRange c6Var 400 700 = true ∧
      select c6St { variableOpt := some true } = [c6Var] := by
  refine ⟨?_, ?_, by decide, by decide⟩
  · intro f
    unfold select
    rw [List.Perm.mem_iff (List.perm_insertionSort _ _), List.mem_filter]
    simp only [Bool.and_eq_true]
    constructor
    · rintro ⟨h1, ⟨⟨h2, h3⟩, h4⟩, h5⟩
      exact ⟨h1, h2, h3, h4, h5⟩
    · rintro ⟨h1, h2, h3, h4, h5⟩
      exact ⟨h1, ⟨⟨h2, h3⟩, h4⟩, h5⟩
  · haveI : IsTotal NFont (selRel (c.languages.getD [st.defaultLanguage]) c.prefer) :=
      ⟨selRel_total _ _⟩
    haveI : IsTrans NFont (selRel (c.languages.getD [st.defaultLanguage]) c.prefer) :=
      ⟨selRel_trans _ _⟩
    unfold select
    exact List.sorted_insertionSort _ _

section RatKernelEvalC1

attribute [local semireducible] Rat.mul Rat.add Rat.inv Rat.sub Nat.gcd

/-- C1 (counterexample): the axis map `{ab: 1, wght: 1e21}` has two
non-null entries, but `parseAxis (axisToString ·)` recovers only one
pair — the two-character tag `ab` is rejected by the
`([A-Za-z0-9]{3,4})` group, and `1e+21` is read by `(-?\d+(\.\d+)?)` as
the number `1`, not `1e21`.  So the round trip does not recover the same
N key-to-number pairs. -/
theorem c1_counterexample :
    parseAxis (axisToString axCex) = [("wght", JSNum.dec ⟨false, ['1'], []⟩)] ∧
      (nonNull axCex).length = 2 ∧
      JSNum.valQ (JSNum.expo ⟨false, ['1'], []⟩ true ['2', '1']) ≠
        JSNum.valQ (JSNum.dec ⟨false, ['1'], []⟩) := by
  refine ⟨by decide, by decide, by decide⟩

end RatKernelEvalC1

/-- C1 (amended): for every axis map whose non-null entries carry
distinct 3–4-character alphanumeric tags and finite numeric values whose
`String()` rendering is plain decimal notation, the `axisToString`
output round-trips through `parseAxis` to exactly those key-to-number
pairs. -/
theorem c1_axis_roundtrip (axes : List (String × Option JSNum))
    (hk : ∀ e ∈ nonNull axes, ValidTag e.1)
    (hv : ∀ e ∈ nonNull axes, ∃ d, e.2 = JSNum.dec d ∧ d.Wf)
    (hnd : ((nonNull axes).map Prod.fst).Nodup) :
    parseAxis (axisToString axes) = nonNull axes :=
  parseAxis_axisToString axes hk hv hnd

theorem c1_axis_roundtrip_witness : parseAxis (axisToString axWit) = nonNull axWit := by
  have hnn : nonNull axWit =
      [("wght", JSNum.dec ⟨false, ['5', '0', '0'], []⟩),
        ("slnt", JSNum.dec ⟨true, ['1', '0'], ['5']⟩)] := by decide
  refine c1_axis_roundtrip axWit ?_ ?_ ?_
  · rw [hnn]; intro e he; fin_cases he <;> decide
  · rw [hnn]; intro e he
    fin_cases he
    · exact ⟨_, rfl, by decide⟩
    · exact ⟨_, rfl, by decide⟩
  · rw [hnn]; decide

/-- C2 (counterexample): the feature map `{ab: 2, liga: 1.5}` has two
non-null numeric entries, but the round trip produces the single entry
`liga ↦ 1`: the two-character tag is rejected by the tag group, and the
numeric pass reads `1.5` with `(-?\d+)` + `parseInt`, truncating it to
`1` — so numeric entries do not round-trip to their values. -/
theorem c2_counterexample :
    parseFeatures (featuresToString featCex) = [("liga", 1)] ∧
      (nonNull featCex).length = 2 := by
  exact ⟨by decide, by decide⟩

/-- C2 (amended): for every feature map whose non-null entries carry
distinct 3–4-character alphanumeric tags and whose values are integers
rendered in plain decimal or boolean-ish values, the round trip through
`featuresToString` and `parseFeatures` recovers, per key, the integer
value of a numeric entry, `1` for a truthy non-numeric entry (serialized
`on`), and `0` for a falsy one (serialized `off`). -/
theorem c2_features_roundtrip (fs : List (String × Option FVal))
    (hk : ∀ e ∈ nonNull fs, ValidTag e.1)
    (hv : ∀ e ∈ nonNull fs, GoodFVal e.2)
    (hnd : ((nonNull fs).map Prod.fst).Nodup) :
    ∀ k, assocGet (parseFeatures (featuresToString fs)) k =
      assocGet ((nonNull fs).map fun e => (e.1, fvalInt e.2)) k :=
  parseFeatures_featuresToString fs hk hv hnd

theorem c2_features_roundtrip_witness :
    assocGet (parseFeatures (featuresToString featWit)) "liga" = some 1 ∧
      assocGet (parseFeatures (featuresToString featWit)) "cv01" = some 2 ∧
      assocGet (parseFeatures (featuresToString featWit)) "kern" = some 0 ∧
      assocGet (parseFeatures (featuresToString featWit)) "ss01" = some (-3) ∧
      assocGet (parseFeatures (featuresToString featWit)) "slnt" = none := by
  have hnn : nonNull featWit =
      [("liga", FVal.boolv true),
        ("cv01", FVal.num (.dec ⟨false, ['2'], []⟩)),
        ("kern", FVal.boolv false),
        ("ss01", FVal.num (.dec ⟨true, ['3'], []⟩))] := by decide
  have h := c2_features_roundtrip featWit
    (by rw [hnn]; intro e he; fin_cases he <;> decide)
    (by
      rw [hnn]; intro e he
      fin_cases he
      · exact Or.inr ⟨_, rfl⟩
      · exact Or.inl ⟨_, rfl, by decide, rfl⟩
      · exact Or.inr ⟨_, rfl⟩
      · exact Or.inl ⟨_, rfl, by decide, rfl⟩)
    (by rw [hnn]; decide)
  exact ⟨(h "liga").trans (by decide), (h "cv01").trans (by decide),
    (h "kern").trans (by decide), (h "ss01").trans (by decide),
    (h "slnt").trans (by decide)⟩

/-! ## C9: per-element axis updates -/

theorem nonNull_map_some {α : Type} (l : List (String × α)) :
    nonNull (l.map fun p => (p.1, some p.2)) = l := by
  unfold nonNull
  rw [List.filterMap_map]
  have hc : ∀ p ∈ l,
      ((fun p => p.2.map ((p.1, ·))) ∘ fun p : String × α => (p.1, some p.2)) p = some p := by
    intro p _
    simp
  rw [List.filterMap_congr hc]
  exact List.filterMap_some l

section RatKernelEvalC9

attribute [local semireducible] Rat.mul Rat.add Rat.inv Rat.sub Nat.gcd

/-- C9 (counterexample): `setAxis` with the finite value `1e21` (whose
`String()` rendering is `1e+21`) does not round-trip: `getAxis` then
returns the number `1`, because the serialized exponent is invisible to
the `(-?\d+(\.\d+)?)` group of `parseAxis`. -/
theorem c9_counterexample :
    getAxis (setAxis "" "wght" (JSNum.expo ⟨false, ['1'], []⟩ true ['2', '1'])) "wght" =
        some (JSNum.dec ⟨false, ['1'], []⟩) ∧
      JSNum.valQ (JSNum.dec ⟨false, ['1'], []⟩) ≠
        JSNum.valQ (JSNum.expo ⟨false, ['1'], []⟩ true ['2', '1']) := by
  exact ⟨by decide, by decide⟩

end RatKernelEvalC9

/-- C9 (amended): after `setAxis(el, tag, v)` with a 3–4-character
alphanumeric tag and a finite numeric value `v` whose `String()`
rendering is plain decimal, `getAxis(el, tag)` returns `v`, and every
axis previously readable from the element's `font-variation-settings`
under a different tag keeps its previous value. -/
theorem c9_setAxis_getAxis (s : String) (tag : String) (d : DecNum)
    (htag : ValidTag tag) (hd : d.Wf) :
    getAxis (setAxis s tag (JSNum.dec d)) tag = some (JSNum.dec d) ∧
      ∀ tag' w, tag' ≠ tag → getAxis s tag' = some w →
        getAxis (setAxis s tag (JSNum.dec d)) tag' = some w := by
  have hprops := parseAxis_entries s
  have hrt : parseAxis (setAxis s tag (JSNum.dec d)) =
      assocSet (parseAxis s) tag (JSNum.dec d) := by
    unfold setAxis
    rw [parseAxis_axisToString]
    · exact nonNull_map_some _
    · rw [nonNull_map_some]
      intro e he
      rcases mem_assocSet he with he' | rfl
      · exact (hprops e he').1
      · exact htag
    · rw [nonNull_map_some]
      intro e he
      rcases mem_assocSet he with he' | rfl
      · exact (hprops e he').2
      · exact ⟨d, rfl, hd⟩
    · rw [nonNull_map_some, assocSet_map_fst]
      have hmnd : ((parseAxis s).map Prod.fst).Nodup := buildObj_nodup _
      split
      · exact hmnd
      · next hnm =>
          refine List.nodup_append.mpr ⟨hmnd, List.nodup_singleton _, ?_⟩
          intro a ha hb
          rw [List.mem_singleton] at hb
          subst hb
          exact hnm ha
  constructor
  · show assocGet (parseAxis (setAxis s tag (JSNum.dec d))) tag = _
    rw [hrt]
    exact assocGet_assocSet_self _ _ _
  · intro tag' w hne hget
    show assocGet (parseAxis (setAxis s tag (JSNum.dec d))) tag' = some w
    rw [hrt, assocGet_assocSet_ne _ _ hne]
    exact hget

theorem c9_setAxis_getAxis_witness :
    getAxis (setAxis "\"wght\" 400" "slnt" (JSNum.dec ⟨true, ['5'], []⟩)) "slnt" =
        some (JSNum.dec ⟨true, ['5'], []⟩) ∧
      getAxis (setAxis "\"wght\" 400" "slnt" (JSNum.dec ⟨true, ['5'], []⟩)) "wght" =
        some (JSNum.dec ⟨false, ['4', '0', '0'], []⟩) := by
  have h := c9_setAxis_getAxis "\"wght\" 400" "slnt" ⟨true, ['5'], []⟩ (by decide) (by decide)
  exact ⟨h.1, h.2 "wght" _ (by decide) (by decide)⟩

/-! ## C5: the family-composition contract -/

theorem filterMap_if_ne_empty (g : String → String) (l : List String)
    (h : ∀ x ∈ l, x ≠ "") :
    (l.filterMap fun x => if x ≠ "" then some (g x) else none) = l.map g := by
  rw [List.filterMap_congr (fun x hx => if_pos (h x hx))]
  exact congrFun (List.filterMap_eq_map g) l

/-- C5: whenever the primary name, the desired languages, the registered
names and the fallback entries are non-empty strings (so that the `add`
truthiness guard drops nothing), `composeFamily` is exactly the family
list described by the claim: primary, then language-matching registered
fonts in registry order excluding the primary, then the fallback chain. -/
theorem c5_composeFamily (st : MgrState) (primary : String)
    (fallback : Option (List String)) (languages : Option (List String))
    (hp : primary ≠ "")
    (hdl : st.defaultLanguage ≠ "")
    (hnames : ∀ f ∈ regAll st, f.name ≠ "")
    (hfb : ∀ x ∈ fallback.getD st.defaultFallback, x ≠ "")
    (hlang : languages = none ∨ ∃ l, languages = some l ∧ l ≠ [] ∧ ∀ x ∈ l, x ≠ "") :
    composeFamily st primary fallback languages =
      composeFamilySpec st primary fallback languages := by
  simp only [composeFamily, composeFamilySpec]
  have hset : ((match languages with
      | some l => if l ≠ [] then l else [st.defaultLanguage]
      | none => [st.defaultLanguage]).filter (fun x => x ≠ "")) =
      languages.getD [st.defaultLanguage] := by
    rcases hlang with rfl | ⟨l, rfl, hne, hmem⟩
    · simp [List.filter_eq_self, hdl]
    · show (if l ≠ [] then l else [st.defaultLanguage]).filter _ = l
      rw [if_pos hne]
      rw [List.filter_eq_self]
      intro a ha
      exact decide_eq_true (hmem a ha)
  rw [hset]
  have hmatch : ((regAll st).filterMap fun f =>
      if f.languages ≠ [] ∧
          f.languages.any (fun l => (languages.getD [st.defaultLanguage]).contains l) then
        some f.name
      else none) =
      ((regAll st).filterMap fun f =>
        if f.languages.any (fun l => (languages.getD [st.defaultLanguage]).contains l) then
          some f.name
        else none) := by
    refine List.filterMap_congr fun f _ => ?_
    refine if_congr ?_ rfl rfl
    constructor
    · rintro ⟨-, h2⟩; exact h2
    · intro h2
      refine ⟨?_, h2⟩
      intro hemp
      rw [hemp] at h2
      simp at h2
  rw [hmatch]
  congr 1
  rw [if_pos hp]
  congr 1
  · congr 1
    refine filterMap_if_ne_empty cssEscape _ ?_
    intro x hx
    obtain ⟨f, hf, hfx⟩ := List.mem_filterMap.mp (List.mem_filter.mp hx).1
    have hxn : x = f.name := by
      by_cases hc : f.languages.any
          (fun l => (languages.getD [st.defaultLanguage]).contains l) = true
      · rw [if_pos hc] at hfx
        exact (Option.some.injEq _ _ ▸ hfx).symm
      · rw [if_neg hc] at hfx
        exact absurd hfx (by simp)
    rw [hxn]
    exact hnames f hf
  · exact filterMap_if_ne_empty cssEscape _ hfb

theorem c5_composeFamily_witness :
    composeFamily demoSt "Inter" none (some ["ko"]) =
      "Inter, \"Noto Sans KR\", system-ui, \"Segoe UI\", \"Apple SD Gothic Neo\", \"Noto Sans KR\", sans-serif" := by
  have h := c5_composeFamily demoSt "Inter" none (some ["ko"])
    (by decide) (by decide) (by decide)
    (by intro x hx; fin_cases hx <;> decide)
    (Or.inr ⟨["ko"], rfl, by decide, by decide⟩)
  rw [h]
  decide

end FontKit
